import Mathlib

/-!
# Verification of the DayZ-Market-Tool core parsers

Shallow embedding of the PBO archive reader/extractor
(`src/parsers/pbo_parser.py`), the P3D model classifier and geometry
sampler (`src/parsers/p3d_parser.py`) and the configuration-text
class-to-model correlator (`src/parsers/config_parser.py`,
`src/parsers/p3d_parser.py`), together with proofs about them.

Byte streams are modelled as `List Nat` (one element per byte); file
reads (`f.read(n)`) return the available bytes, and `struct.unpack`
failures on short reads are modelled by `Option`.
-/

set_option maxRecDepth 8000

namespace DayZMT

/-! ## PBO archive parser (src/parsers/pbo_parser.py)

Python loops that consume a variable number of bytes per iteration are
modelled with an explicit fuel argument; the entry points instantiate the
fuel with `length + 1`, which is always sufficient because every loop
iteration consumes at least one byte. -/

/-- `read_asciiz`: read a null-terminated string; the terminator is
consumed and dropped.  At end of input the bytes read so far are returned
(Python's `takewhile` over `iter(f.read,b'')` stops silently at EOF). -/
def read_asciiz (s : List Nat) : List Nat × List Nat :=
  (s.takeWhile (fun b => b ≠ 0), (s.dropWhile (fun b => b ≠ 0)).drop 1)

/-- `read_ulong`: read 4 bytes, little-endian; `struct.unpack('<L', data)`
raises when fewer than 4 bytes remain, modelled by `none`. -/
def read_ulong (s : List Nat) : Option (Nat × List Nat) :=
  match s with
  | b0 :: b1 :: b2 :: b3 :: rest =>
      some (b0 + 256 * b1 + 65536 * b2 + 16777216 * b3, rest)
  | _ => none

structure PBOHeaderEntry where
  filename : List Nat
  packing_method : Nat
  original_size : Nat
  reserved : Nat
  timestamp : Nat
  data_size : Nat
  data_offset : Nat
deriving DecidableEq, Repr

/-- `PBOHeaderEntry.is_boundary`: an entry with empty filename. -/
def PBOHeaderEntry.is_boundary (e : PBOHeaderEntry) : Bool :=
  e.filename = ([] : List Nat)

/-- `PBOHeaderEntry.parse_from_file`: a name then five little-endian u32
fields; `data_offset` is initialised to 0 by the constructor. -/
def PBOHeaderEntry.parse_from_file (s : List Nat) :
    Option (PBOHeaderEntry × List Nat) := do
  let (filename, s1) := read_asciiz s
  let (packing_method, s2) ← read_ulong s1
  let (original_size, s3) ← read_ulong s2
  let (reserved, s4) ← read_ulong s3
  let (timestamp, s5) ← read_ulong s4
  let (data_size, s6) ← read_ulong s5
  pure (⟨filename, packing_method, original_size, reserved, timestamp, data_size, 0⟩, s6)

structure PBOHeaderExtension where
  strings : List (List Nat)
  pbo_header_entry : PBOHeaderEntry
deriving DecidableEq, Repr

/-- `PBOHeaderExtension.parse_from_file`'s loop: read null-terminated
strings until an empty one. -/
def parse_extension_strings : Nat → List Nat → List (List Nat) × List Nat
  | 0, s => ([], s)
  | fuel + 1, s =>
    let (str, s1) := read_asciiz s
    if str = [] then ([], s1)
    else
      let (rest, s2) := parse_extension_strings fuel s1
      (str :: rest, s2)

structure PBOHeader where
  header_extension : Option PBOHeaderExtension
  pbo_entries : List PBOHeaderEntry
  eoh_boundary : PBOHeaderEntry
deriving DecidableEq, Repr

/-- The non-first iterations of `PBOHeader.parse_from_file`'s loop:
non-boundary records are accumulated, a boundary terminates the header. -/
def parse_header_entries : Nat → List Nat →
    Option (List PBOHeaderEntry × PBOHeaderEntry × List Nat)
  | 0, _ => none
  | fuel + 1, s =>
    match PBOHeaderEntry.parse_from_file s with
    | none => none
    | some (e, s1) =>
      if e.is_boundary then some ([], e, s1)
      else
        match parse_header_entries fuel s1 with
        | none => none
        | some (es, b, r) => some (e :: es, b, r)

/-- `PBOHeader.parse_from_file`: the first record, if a boundary,
introduces the header extension, then the remaining loop runs with
`first_entry = False`. -/
def PBOHeader.parse_from_file (s : List Nat) : Option (PBOHeader × List Nat) :=
  match PBOHeaderEntry.parse_from_file s with
  | none => none
  | some (e, s1) =>
    if e.is_boundary then
      let (strs, s2) := parse_extension_strings (s1.length + 1) s1
      match parse_header_entries (s2.length + 1) s2 with
      | none => none
      | some (es, b, r) => some (⟨some ⟨strs, e⟩, es, b⟩, r)
    else
      match parse_header_entries (s1.length + 1) s1 with
      | none => none
      | some (es, b, r) => some (⟨none, e :: es, b⟩, r)

structure PBOParser where
  header : Option PBOHeader
  entries : List PBOHeaderEntry
deriving DecidableEq, Repr

/-- The offset-assignment loop of `PBOParser.parse_pbo`: walk the header
entries from the position reached after the header, assigning
`data_offset` and advancing by `data_size` for each non-boundary entry. -/
def assign_offsets : Nat → List PBOHeaderEntry → List PBOHeaderEntry
  | _, [] => []
  | pos, e :: es =>
    if e.is_boundary then e :: assign_offsets pos es
    else { e with data_offset := pos } :: assign_offsets (pos + e.data_size) es

/-- `PBOParser.parse_pbo`: on any parse failure the exception is caught,
`False` is returned and the parser state is left unchanged; on success the
header is stored and `entries` becomes the non-boundary entries with
offsets assigned. -/
def PBOParser.parse_pbo (p : PBOParser) (stream : List Nat) : Bool × PBOParser :=
  match PBOHeader.parse_from_file stream with
  | none => (false, p)
  | some (h, rest) =>
    let origin := stream.length - rest.length
    let es := assign_offsets origin h.pbo_entries
    (true, { header := some { h with pbo_entries := es },
             entries := es.filter (fun e => !e.is_boundary) })

/-- `entry.filename.replace('\\', os.sep)`: byte 92 is the backslash; the
host separator is passed as a parameter. -/
def normalize_name (sep : Nat) (name : List Nat) : List Nat :=
  name.map (fun b => if b = 92 then sep else b)

/-- `PBOParser.extract_to_directory`: re-parse, then for every entry with
non-empty name and positive size seek to `data_offset` and copy
`data_size` bytes (Python `f.read` returns the available bytes).  The
result lists the writes `(relative destination path, bytes)` in entry
order; `none` models the `False` return after a parse failure. -/
def PBOParser.extract_to_directory (p : PBOParser) (stream : List Nat)
    (sep : Nat) : Option (PBOParser × List (List Nat × List Nat)) :=
  match p.parse_pbo stream with
  | (false, _) => none
  | (true, p1) =>
    some (p1, p1.entries.filterMap (fun e =>
      if e.filename ≠ [] ∧ e.data_size > 0 then
        some (normalize_name sep e.filename,
              (stream.drop e.data_offset).take e.data_size)
      else none))

/-! ### Serialized well-formed archives -/

/-- Little-endian 4-byte encoding of a u32 value. -/
def encode_u32 (n : Nat) : List Nat :=
  [n % 256, n / 256 % 256, n / 65536 % 256, n / 16777216 % 256]

/-- The byte encoding of one header record (name, terminator, five u32s);
`data_offset` is not stored in the file. -/
def encode_record (e : PBOHeaderEntry) : List Nat :=
  e.filename ++ 0 :: (encode_u32 e.packing_method ++ encode_u32 e.original_size ++
    encode_u32 e.reserved ++ encode_u32 e.timestamp ++ encode_u32 e.data_size)

def encode_records (es : List PBOHeaderEntry) : List Nat :=
  (es.map encode_record).flatten

/-- The extension block: each string null-terminated, then an empty
string. -/
def encode_ext (strs : List (List Nat)) : List Nat :=
  (strs.map (fun s => s ++ [0])).flatten ++ [0]

/-- A well-formed header: first boundary record, extension strings,
non-boundary records, terminating boundary record. -/
def mk_header (b1 : PBOHeaderEntry) (ext : List (List Nat))
    (es : List PBOHeaderEntry) (b2 : PBOHeaderEntry) : List Nat :=
  encode_record b1 ++ encode_ext ext ++ encode_records es ++ encode_record b2

/-- Header followed by payload bytes. -/
def mk_archive (b1 : PBOHeaderEntry) (ext : List (List Nat))
    (es : List PBOHeaderEntry) (b2 : PBOHeaderEntry) (payload : List Nat) :
    List Nat :=
  mk_header b1 ext es b2 ++ payload

/-- A storable name: non-empty, with no embedded NUL byte. -/
def good_name (nm : List Nat) : Prop := nm ≠ [] ∧ ∀ b ∈ nm, b ≠ 0

/-- All five integer fields fit in a u32. -/
def good_fields (e : PBOHeaderEntry) : Prop :=
  e.packing_method < 4294967296 ∧ e.original_size < 4294967296 ∧
  e.reserved < 4294967296 ∧ e.timestamp < 4294967296 ∧ e.data_size < 4294967296

def good_entry (e : PBOHeaderEntry) : Prop :=
  good_name e.filename ∧ good_fields e

/-- A non-empty NUL-free extension string. -/
def good_str (s : List Nat) : Prop := s ≠ [] ∧ ∀ b ∈ s, b ≠ 0

/-- The entry as built by `PBOHeaderEntry.parse_from_file` (offset 0). -/
def zero_off (e : PBOHeaderEntry) : PBOHeaderEntry := { e with data_offset := 0 }

instance : ∀ nm, Decidable (good_name nm) := fun nm => by
  unfold good_name; infer_instance

instance : ∀ e, Decidable (good_fields e) := fun e => by
  unfold good_fields; infer_instance

instance : ∀ e, Decidable (good_entry e) := fun e => by
  unfold good_entry; infer_instance

instance : ∀ s, Decidable (good_str s) := fun s => by
  unfold good_str; infer_instance

/-! ### Decode lemmas for serialized archives -/

theorem read_asciiz_encode (nm rest : List Nat) (h : ∀ b ∈ nm, b ≠ 0) :
    read_asciiz (nm ++ 0 :: rest) = (nm, rest) := by
  induction nm with
  | nil => simp [read_asciiz]
  | cons b bs ih =>
    have hb : b ≠ 0 := h b (by simp)
    have hbs : ∀ x ∈ bs, x ≠ 0 := fun x hx => h x (by simp [hx])
    have ihh := ih hbs
    simp only [read_asciiz, Prod.mk.injEq, ne_eq, decide_not, List.drop_one] at ihh ⊢
    simp [List.takeWhile_cons, List.dropWhile_cons, hb, ihh.1, ihh.2]

theorem read_ulong_encode (n : Nat) (rest : List Nat) (h : n < 4294967296) :
    read_ulong (encode_u32 n ++ rest) = some (n, rest) := by
  simp only [encode_u32, List.cons_append, List.nil_append, read_ulong,
    Option.some.injEq, Prod.mk.injEq, and_true]
  omega

theorem parse_entry_encode (e : PBOHeaderEntry) (rest : List Nat)
    (hn : ∀ b ∈ e.filename, b ≠ 0) (hf : good_fields e) :
    PBOHeaderEntry.parse_from_file (encode_record e ++ rest)
      = some (zero_off e, rest) := by
  obtain ⟨h1, h2, h3, h4, h5⟩ := hf
  simp only [PBOHeaderEntry.parse_from_file, encode_record, List.append_assoc,
    List.cons_append, read_asciiz_encode _ _ hn, read_ulong_encode _ _ h1,
    read_ulong_encode _ _ h2, read_ulong_encode _ _ h3, read_ulong_encode _ _ h4,
    read_ulong_encode _ _ h5, Option.bind_some, Option.some_bind, bind, zero_off,
    pure]

theorem zero_off_filename (e : PBOHeaderEntry) : (zero_off e).filename = e.filename := rfl

theorem zero_off_boundary (e : PBOHeaderEntry) :
    (zero_off e).is_boundary = e.is_boundary := rfl

theorem parse_ext_encode (strs : List (List Nat)) (rest : List Nat) (fuel : Nat)
    (hs : ∀ s ∈ strs, good_str s) (hf : strs.length < fuel) :
    parse_extension_strings fuel (encode_ext strs ++ rest) = (strs, rest) := by
  induction strs generalizing fuel rest with
  | nil =>
    obtain ⟨f, rfl⟩ : ∃ f, fuel = f + 1 := ⟨fuel - 1, by omega⟩
    simp [parse_extension_strings, encode_ext, read_asciiz]
  | cons s ss ih =>
    obtain ⟨f, rfl⟩ : ∃ f, fuel = f + 1 := ⟨fuel - 1, by omega⟩
    obtain ⟨hne, hnz⟩ := hs s (by simp)
    have harr : encode_ext (s :: ss) ++ rest = s ++ 0 :: (encode_ext ss ++ rest) := by
      simp [encode_ext, List.append_assoc]
    rw [harr]
    simp only [parse_extension_strings, read_asciiz_encode _ _ hnz]
    rw [if_neg hne, ih _ _ (fun t ht => hs t (by simp [ht])) (by simpa using hf)]

theorem encode_record_length (e : PBOHeaderEntry) :
    (encode_record e).length = e.filename.length + 21 := by
  simp [encode_record, encode_u32]

theorem encode_records_length_ge (es : List PBOHeaderEntry) :
    es.length ≤ (encode_records es).length := by
  induction es with
  | nil => simp [encode_records]
  | cons e es ih =>
    simp only [encode_records, List.map_cons, List.flatten_cons, List.length_append,
      List.length_cons]
    have := encode_record_length e
    simp only [encode_records] at ih
    omega

theorem encode_ext_length_ge (strs : List (List Nat)) :
    strs.length < (encode_ext strs).length := by
  induction strs with
  | nil => simp [encode_ext]
  | cons s ss ih =>
    simp only [encode_ext, List.map_cons, List.flatten_cons, List.append_assoc,
      List.length_append, List.length_cons] at ih ⊢
    omega

theorem parse_entries_encode (es : List PBOHeaderEntry) (b2 : PBOHeaderEntry)
    (rest : List Nat) (fuel : Nat)
    (hes : ∀ e ∈ es, good_entry e) (hb : b2.filename = []) (hbf : good_fields b2)
    (hf : es.length < fuel) :
    parse_header_entries fuel (encode_records es ++ encode_record b2 ++ rest)
      = some (es.map zero_off, zero_off b2, rest) := by
  induction es generalizing fuel with
  | nil =>
    obtain ⟨f, rfl⟩ : ∃ f, fuel = f + 1 := ⟨fuel - 1, by omega⟩
    have hn : ∀ b ∈ b2.filename, b ≠ 0 := by simp [hb]
    simp only [encode_records, List.map_nil, List.flatten_nil, List.nil_append,
      parse_header_entries, parse_entry_encode b2 rest hn hbf]
    have : (zero_off b2).is_boundary = true := by
      simp [PBOHeaderEntry.is_boundary, zero_off, hb]
    simp [this]
  | cons e es ih =>
    obtain ⟨f, rfl⟩ : ∃ f, fuel = f + 1 := ⟨fuel - 1, by omega⟩
    obtain ⟨⟨hne, hnz⟩, hfe⟩ := hes e (by simp)
    have harr : encode_records (e :: es) ++ encode_record b2 ++ rest
        = encode_record e ++ (encode_records es ++ encode_record b2 ++ rest) := by
      simp [encode_records, List.append_assoc]
    rw [harr]
    simp only [parse_header_entries, parse_entry_encode e _ hnz hfe]
    have hnb : (zero_off e).is_boundary = false := by
      simp [PBOHeaderEntry.is_boundary, zero_off, hne]
    rw [hnb]
    simp only [Bool.false_eq_true, if_false]
    rw [ih f (fun t ht => hes t (by simp [ht]))
      (by simp only [List.length_cons] at hf; omega)]
    simp

theorem parse_header_encode (b1 : PBOHeaderEntry) (ext : List (List Nat))
    (es : List PBOHeaderEntry) (b2 : PBOHeaderEntry) (rest : List Nat)
    (hb1 : b1.filename = []) (hf1 : good_fields b1)
    (hext : ∀ s ∈ ext, good_str s)
    (hes : ∀ e ∈ es, good_entry e)
    (hb2 : b2.filename = []) (hf2 : good_fields b2) :
    PBOHeader.parse_from_file (mk_header b1 ext es b2 ++ rest)
      = some (⟨some ⟨ext, zero_off b1⟩, es.map zero_off, zero_off b2⟩, rest) := by
  have hn1 : ∀ b ∈ b1.filename, b ≠ 0 := by simp [hb1]
  have harr : mk_header b1 ext es b2 ++ rest
      = encode_record b1 ++ (encode_ext ext ++ (encode_records es ++ encode_record b2 ++ rest)) := by
    simp [mk_header, List.append_assoc]
  rw [harr]
  simp only [PBOHeader.parse_from_file, parse_entry_encode b1 _ hn1 hf1]
  have hbd : (zero_off b1).is_boundary = true := by
    simp [PBOHeaderEntry.is_boundary, zero_off, hb1]
  rw [hbd]
  simp only [if_true]
  have hfuel1 : ext.length <
      (encode_ext ext ++ (encode_records es ++ encode_record b2 ++ rest)).length + 1 := by
    have := encode_ext_length_ge ext
    simp only [List.length_append]
    omega
  rw [parse_ext_encode ext _ _ hext hfuel1]
  have hfuel2 : es.length < (encode_records es ++ encode_record b2 ++ rest).length + 1 := by
    have := encode_records_length_ge es
    simp only [List.length_append]
    omega
  rw [parse_entries_encode es b2 rest _ hes hb2 hf2 hfuel2]

/-! ### Offset assignment lemmas -/

/-- Default entry used with `List.getD`. -/
def d0 : PBOHeaderEntry := ⟨[], 0, 0, 0, 0, 0, 0⟩

theorem assign_offsets_length (pos : Nat) (es : List PBOHeaderEntry) :
    (assign_offsets pos es).length = es.length := by
  induction es generalizing pos with
  | nil => simp [assign_offsets]
  | cons e es ih =>
    simp only [assign_offsets]
    by_cases hb : e.is_boundary <;> simp [hb, ih]

theorem assign_offsets_getD (es : List PBOHeaderEntry) (pos i : Nat)
    (hnb : ∀ e ∈ es, e.is_boundary = false) (hi : i < es.length) :
    (assign_offsets pos es).getD i d0
      = { es.getD i d0 with
          data_offset := pos + ((es.take i).map PBOHeaderEntry.data_size).sum } := by
  induction es generalizing pos i with
  | nil => simp at hi
  | cons e es ih =>
    have hbe : e.is_boundary = false := hnb e (by simp)
    cases i with
    | zero => simp [assign_offsets, hbe]
    | succ j =>
      simp only [assign_offsets, hbe, Bool.false_eq_true, if_false, List.getD_cons_succ,
        List.take_succ_cons, List.map_cons, List.sum_cons]
      rw [ih (pos + e.data_size) j (fun t ht => hnb t (by simp [ht])) (by simpa using hi)]
      have harith : pos + e.data_size + ((es.take j).map PBOHeaderEntry.data_size).sum
          = pos + (e.data_size + ((es.take j).map PBOHeaderEntry.data_size).sum) := by
        omega
      rw [harith]

theorem assign_offsets_nonboundary (es : List PBOHeaderEntry) (pos : Nat)
    (hnb : ∀ e ∈ es, e.is_boundary = false) :
    ∀ e ∈ assign_offsets pos es, e.is_boundary = false := by
  induction es generalizing pos with
  | nil => simp [assign_offsets]
  | cons e es ih =>
    have hbe : e.is_boundary = false := hnb e (by simp)
    simp only [assign_offsets, hbe, Bool.false_eq_true, if_false]
    intro t ht
    rcases List.mem_cons.mp ht with h | h
    · subst h
      simpa [PBOHeaderEntry.is_boundary] using hbe
    · exact ih _ (fun u hu => hnb u (by simp [hu])) t h

theorem parse_pbo_encode (p : PBOParser) (b1 b2 : PBOHeaderEntry)
    (ext : List (List Nat)) (es : List PBOHeaderEntry) (payload : List Nat)
    (hb1 : b1.filename = []) (hf1 : good_fields b1)
    (hext : ∀ s ∈ ext, good_str s)
    (hes : ∀ e ∈ es, good_entry e)
    (hb2 : b2.filename = []) (hf2 : good_fields b2) :
    p.parse_pbo (mk_archive b1 ext es b2 payload)
      = (true,
         { header := some ⟨some ⟨ext, zero_off b1⟩,
             assign_offsets (mk_header b1 ext es b2).length (es.map zero_off),
             zero_off b2⟩,
           entries := assign_offsets (mk_header b1 ext es b2).length (es.map zero_off) }) := by
  have hpar := parse_header_encode b1 ext es b2 payload hb1 hf1 hext hes hb2 hf2
  simp only [PBOParser.parse_pbo, mk_archive, hpar]
  have horigin : (mk_header b1 ext es b2 ++ payload).length - payload.length
      = (mk_header b1 ext es b2).length := by
    simp [List.length_append]
  rw [horigin]
  have hnbz : ∀ e ∈ es.map zero_off, e.is_boundary = false := by
    intro t ht
    obtain ⟨u, hu, rfl⟩ := List.mem_map.mp ht
    obtain ⟨⟨hne, _⟩, _⟩ := hes u hu
    simp [zero_off, PBOHeaderEntry.is_boundary, hne]
  have hfil : (assign_offsets (mk_header b1 ext es b2).length (es.map zero_off)).filter
      (fun e => !e.is_boundary)
      = assign_offsets (mk_header b1 ext es b2).length (es.map zero_off) := by
    apply List.filter_eq_self.mpr
    intro t ht
    simp [assign_offsets_nonboundary _ _ hnbz t ht]
  rw [hfil]

/-- C1 helper: prefix sums over `data_size` step by one entry. -/
theorem sum_take_succ_data_size (es : List PBOHeaderEntry) (i : Nat)
    (hi : i < es.length) :
    ((es.take (i + 1)).map PBOHeaderEntry.data_size).sum
      = ((es.take i).map PBOHeaderEntry.data_size).sum + (es.getD i d0).data_size := by
  induction es generalizing i with
  | nil => simp at hi
  | cons e es ih =>
    cases i with
    | zero => simp
    | succ j =>
      simp only [List.take_succ_cons, List.map_cons, List.sum_cons, List.getD_cons_succ]
      rw [ih j (by simp only [List.length_cons] at hi; omega)]
      omega

/-- **C1.** For every well-formed archive byte stream (a first boundary
record introducing an extension string list, then `N` non-boundary
records, then a terminating boundary, then arbitrary payload bytes),
`parse_pbo` succeeds and the resulting entry table contains exactly the
`N` non-boundary records in file order with their stored fields, no
boundary marker appears in the table, and after offset assignment
`data_offset[0]` equals the stream position immediately after the header
(the origin) and `data_offset[i] = data_offset[i-1] + data_size[i-1]`. -/
theorem C1_archive_decode (p : PBOParser) (b1 b2 : PBOHeaderEntry)
    (ext : List (List Nat)) (es : List PBOHeaderEntry) (payload : List Nat)
    (hb1 : b1.filename = []) (hf1 : good_fields b1)
    (hext : ∀ s ∈ ext, good_str s)
    (hes : ∀ e ∈ es, good_entry e)
    (hb2 : b2.filename = []) (hf2 : good_fields b2) :
    let r := p.parse_pbo (mk_archive b1 ext es b2 payload)
    let origin := (mk_header b1 ext es b2).length
    r.1 = true ∧
    r.2.entries.length = es.length ∧
    (∀ e ∈ r.2.entries, e.filename ≠ []) ∧
    (∀ i, i < es.length →
      (r.2.entries.getD i d0).filename = (es.getD i d0).filename ∧
      (r.2.entries.getD i d0).packing_method = (es.getD i d0).packing_method ∧
      (r.2.entries.getD i d0).original_size = (es.getD i d0).original_size ∧
      (r.2.entries.getD i d0).reserved = (es.getD i d0).reserved ∧
      (r.2.entries.getD i d0).timestamp = (es.getD i d0).timestamp ∧
      (r.2.entries.getD i d0).data_size = (es.getD i d0).data_size) ∧
    (0 < es.length → (r.2.entries.getD 0 d0).data_offset = origin) ∧
    (∀ i, i + 1 < es.length →
      (r.2.entries.getD (i + 1) d0).data_offset
        = (r.2.entries.getD i d0).data_offset + (r.2.entries.getD i d0).data_size) := by
  intro r origin
  have hr : r = (true,
      { header := some ⟨some ⟨ext, zero_off b1⟩,
          assign_offsets origin (es.map zero_off), zero_off b2⟩,
        entries := assign_offsets origin (es.map zero_off) }) :=
    parse_pbo_encode p b1 b2 ext es payload hb1 hf1 hext hes hb2 hf2
  have hnbz : ∀ e ∈ es.map zero_off, e.is_boundary = false := by
    intro t ht
    obtain ⟨u, hu, rfl⟩ := List.mem_map.mp ht
    obtain ⟨⟨hne, _⟩, _⟩ := hes u hu
    simp [zero_off, PBOHeaderEntry.is_boundary, hne]
  have hlen : (assign_offsets origin (es.map zero_off)).length = es.length := by
    rw [assign_offsets_length]; simp
  have hgetD : ∀ i, i < es.length →
      (assign_offsets origin (es.map zero_off)).getD i d0
        = { (es.map zero_off).getD i d0 with
            data_offset :=
              origin + (((es.map zero_off).take i).map PBOHeaderEntry.data_size).sum } := by
    intro i hi
    exact assign_offsets_getD (es.map zero_off) origin i hnbz (by simpa using hi)
  have hmapD : ∀ i, i < es.length → (es.map zero_off).getD i d0 = zero_off (es.getD i d0) := by
    intro i hi
    rw [List.getD_eq_getElem?_getD, List.getD_eq_getElem?_getD, List.getElem?_map,
      List.getElem?_eq_getElem hi]
    rfl
  have hcomp : PBOHeaderEntry.data_size ∘ zero_off = PBOHeaderEntry.data_size := by
    funext a
    rfl
  have hsum : ∀ i, ((es.map zero_off).take i).map PBOHeaderEntry.data_size
      = (es.take i).map PBOHeaderEntry.data_size := by
    intro i
    rw [← List.map_take, List.map_map, hcomp]
  rw [hr]
  refine ⟨rfl, hlen, ?_, ?_, ?_, ?_⟩
  · intro e he
    have := assign_offsets_nonboundary (es.map zero_off) origin hnbz e he
    simpa [PBOHeaderEntry.is_boundary] using this
  · intro i hi
    rw [hgetD i hi, hmapD i hi]
    simp [zero_off]
  · intro h0
    rw [hgetD 0 h0]
    simp
  · intro i hi
    rw [hgetD (i + 1) hi, hgetD i (by omega), hmapD i (by omega)]
    simp only [hsum]
    rw [sum_take_succ_data_size es i (by omega)]
    simp only [zero_off]
    omega

/-! Concrete sample archive used by witnesses: a one-string extension and
two entries `"a"` (2 payload bytes) and `"bc"` (3 payload bytes). -/

def wbnd : PBOHeaderEntry := ⟨[], 0, 0, 0, 0, 0, 0⟩

def wext : List (List Nat) := [[112, 114]]

def wes : List PBOHeaderEntry :=
  [⟨[97], 1, 2, 3, 4, 2, 0⟩, ⟨[98, 99], 0, 0, 0, 0, 3, 0⟩]

def wpayloads : List (List Nat) := [[9, 9], [8, 8, 8]]

/-- Witness for C1: the archive-decode theorem applied to the concrete
sample archive. -/
theorem C1_archive_decode_witness :
    (let r := PBOParser.parse_pbo ⟨none, []⟩
        (mk_archive wbnd wext wes wbnd [9, 9, 8, 8, 8])
     let origin := (mk_header wbnd wext wes wbnd).length
     r.1 = true ∧
     r.2.entries.length = wes.length ∧
     (∀ e ∈ r.2.entries, e.filename ≠ []) ∧
     (∀ i, i < wes.length →
       (r.2.entries.getD i d0).filename = (wes.getD i d0).filename ∧
       (r.2.entries.getD i d0).packing_method = (wes.getD i d0).packing_method ∧
       (r.2.entries.getD i d0).original_size = (wes.getD i d0).original_size ∧
       (r.2.entries.getD i d0).reserved = (wes.getD i d0).reserved ∧
       (r.2.entries.getD i d0).timestamp = (wes.getD i d0).timestamp ∧
       (r.2.entries.getD i d0).data_size = (wes.getD i d0).data_size) ∧
     (0 < wes.length → (r.2.entries.getD 0 d0).data_offset = origin) ∧
     (∀ i, i + 1 < wes.length →
       (r.2.entries.getD (i + 1) d0).data_offset
         = (r.2.entries.getD i d0).data_offset + (r.2.entries.getD i d0).data_size)) :=
  C1_archive_decode ⟨none, []⟩ wbnd wbnd wext wes [9, 9, 8, 8, 8]
    (by decide) (by decide) (by decide) (by decide) (by decide) (by decide)

/-! ### Extraction (C2, C3) -/

theorem extract_writes_aux (stream : List Nat) (sep : Nat) :
    ∀ (es : List PBOHeaderEntry) (payloads : List (List Nat)) (pos : Nat)
      (rest : List Nat),
    (∀ e ∈ es, e.filename ≠ []) →
    payloads.length = es.length →
    (∀ i, i < es.length → (payloads.getD i []).length = (es.getD i d0).data_size) →
    stream.drop pos = payloads.flatten ++ rest →
    (assign_offsets pos (es.map zero_off)).filterMap (fun e =>
        if e.filename ≠ [] ∧ e.data_size > 0 then
          some (normalize_name sep e.filename,
                (stream.drop e.data_offset).take e.data_size)
        else none)
      = (es.zip payloads).filterMap (fun ep =>
          if ep.1.data_size > 0 then
            some (normalize_name sep ep.1.filename, ep.2)
          else none) := by
  intro es
  induction es with
  | nil =>
    intro payloads pos rest _ _ _ _
    simp [assign_offsets]
  | cons e es ih =>
    intro payloads pos rest hnn hpl hsz hdrop
    obtain ⟨pl, pls, rfl⟩ : ∃ pl pls, payloads = pl :: pls := by
      cases payloads with
      | nil => simp at hpl
      | cons pl pls => exact ⟨pl, pls, rfl⟩
    have hne : e.filename ≠ [] := hnn e (by simp)
    have hnb : (zero_off e).is_boundary = false := by
      simp [zero_off, PBOHeaderEntry.is_boundary, hne]
    have hpl0 : pl.length = e.data_size := by
      have := hsz 0 (by simp)
      simpa using this
    have hdrop0 : stream.drop pos = pl ++ (pls.flatten ++ rest) := by
      simpa [List.append_assoc] using hdrop
    have hslice : (stream.drop pos).take e.data_size = pl := by
      rw [hdrop0, ← hpl0, List.take_left]
    have hdrop1 : stream.drop (pos + e.data_size) = pls.flatten ++ rest := by
      have h1 : stream.drop (pos + e.data_size) = (stream.drop pos).drop e.data_size := by
        rw [List.drop_drop]
      rw [h1, hdrop0, ← hpl0, List.drop_left]
    have ihh := ih pls (pos + e.data_size) rest
      (fun t ht => hnn t (by simp [ht]))
      (by simpa using hpl)
      (fun i hi => by
        have := hsz (i + 1) (by simp only [List.length_cons]; omega)
        simpa using this)
      hdrop1
    simp only [List.map_cons, assign_offsets, hnb, Bool.false_eq_true, if_false,
      List.zip_cons_cons, List.filterMap_cons]
    by_cases hpos : e.data_size > 0
    · have hc : (⟨e.filename, e.packing_method, e.original_size, e.reserved,
          e.timestamp, e.data_size, pos⟩ : PBOHeaderEntry).filename ≠ []
          ∧ (⟨e.filename, e.packing_method, e.original_size, e.reserved,
          e.timestamp, e.data_size, pos⟩ : PBOHeaderEntry).data_size > 0 := ⟨hne, hpos⟩
      simp only [zero_off]
      rw [if_pos hc, if_pos hpos, ihh, hslice]
    · have hc : ¬ ((⟨e.filename, e.packing_method, e.original_size, e.reserved,
          e.timestamp, e.data_size, pos⟩ : PBOHeaderEntry).filename ≠ []
          ∧ (⟨e.filename, e.packing_method, e.original_size, e.reserved,
          e.timestamp, e.data_size, pos⟩ : PBOHeaderEntry).data_size > 0) := by
        simp [hpos]
      simp only [zero_off]
      rw [if_neg hc, if_neg hpos, ihh]

theorem writes_total_aux (sep : Nat) :
    ∀ (es : List PBOHeaderEntry) (payloads : List (List Nat)),
    payloads.length = es.length →
    (∀ i, i < es.length → (payloads.getD i []).length = (es.getD i d0).data_size) →
    (((es.zip payloads).filterMap (fun ep =>
        if ep.1.data_size > 0 then
          some (normalize_name sep ep.1.filename, ep.2)
        else none)).map (fun w => w.2.length)).sum
      = ((es.filter (fun e => decide (e.data_size > 0))).map
          PBOHeaderEntry.data_size).sum := by
  intro es
  induction es with
  | nil =>
    intro payloads _ _
    simp
  | cons e es ih =>
    intro payloads hpl hsz
    obtain ⟨pl, pls, rfl⟩ : ∃ pl pls, payloads = pl :: pls := by
      cases payloads with
      | nil => simp at hpl
      | cons pl pls => exact ⟨pl, pls, rfl⟩
    have hpl0 : pl.length = e.data_size := by
      have := hsz 0 (by simp)
      simpa using this
    have ihh := ih pls (by simpa using hpl)
      (fun i hi => by
        have := hsz (i + 1) (by simp only [List.length_cons]; omega)
        simpa using this)
    simp only [List.zip_cons_cons, List.filterMap_cons, List.filter_cons]
    by_cases hpos : e.data_size > 0
    · have hd : decide (e.data_size > 0) = true := by simpa using hpos
      rw [if_pos hpos, if_pos hd]
      simp only [List.map_cons, List.sum_cons]
      rw [ihh, hpl0]
    · have hd : ¬ decide (e.data_size > 0) = true := by simpa using hpos
      rw [if_neg hpos, if_neg hd, ihh]

/-- **C2.** For every parsed well-formed archive, extraction produces one
write per entry with non-empty name and positive `data_size`, in entry
order; each write's destination is the stored name with backslashes
normalized to the host separator and its content is byte-for-byte the
`data_size`-byte payload slice at the entry's `data_offset`; the total
number of bytes written equals the sum of `data_size` over those
entries. -/
theorem C2_extract_writes (p : PBOParser) (b1 b2 : PBOHeaderEntry)
    (ext : List (List Nat)) (es : List PBOHeaderEntry)
    (payloads : List (List Nat)) (sep : Nat)
    (hb1 : b1.filename = []) (hf1 : good_fields b1)
    (hext : ∀ s ∈ ext, good_str s)
    (hes : ∀ e ∈ es, good_entry e)
    (hb2 : b2.filename = []) (hf2 : good_fields b2)
    (hpl : payloads.length = es.length)
    (hsz : ∀ i, i < es.length → (payloads.getD i []).length = (es.getD i d0).data_size) :
    let stream := mk_archive b1 ext es b2 payloads.flatten
    let ws := (es.zip payloads).filterMap (fun ep =>
        if ep.1.data_size > 0 then
          some (normalize_name sep ep.1.filename, ep.2)
        else none)
    Option.map Prod.snd (p.extract_to_directory stream sep) = some ws ∧
    (ws.map (fun w => w.2.length)).sum
      = ((es.filter (fun e => decide (e.data_size > 0))).map
          PBOHeaderEntry.data_size).sum := by
  intro stream ws
  have hpp := parse_pbo_encode p b1 b2 ext es payloads.flatten hb1 hf1 hext hes hb2 hf2
  have hnn : ∀ e ∈ es, e.filename ≠ [] := fun e he => (hes e he).1.1
  have hdrop : stream.drop (mk_header b1 ext es b2).length = payloads.flatten ++ [] := by
    show (mk_archive b1 ext es b2 payloads.flatten).drop (mk_header b1 ext es b2).length
      = payloads.flatten ++ []
    simp [mk_archive, List.drop_left]
  have haux := extract_writes_aux stream sep es payloads
    (mk_header b1 ext es b2).length [] hnn hpl hsz hdrop
  constructor
  · show Option.map Prod.snd
      ((p.extract_to_directory (mk_archive b1 ext es b2 payloads.flatten) sep)) = some ws
    simp only [PBOParser.extract_to_directory, hpp]
    rw [show (mk_archive b1 ext es b2 payloads.flatten) = stream from rfl, haux]
    rfl
  · exact writes_total_aux sep es payloads hpl hsz

/-- Witness for C2 at the concrete sample archive. -/
theorem C2_extract_writes_witness :
    (let stream := mk_archive wbnd wext wes wbnd wpayloads.flatten
     let ws := (wes.zip wpayloads).filterMap (fun ep =>
        if ep.1.data_size > 0 then
          some (normalize_name 47 ep.1.filename, ep.2)
        else none)
     Option.map Prod.snd (PBOParser.extract_to_directory ⟨none, []⟩ stream 47) = some ws ∧
     (ws.map (fun w => w.2.length)).sum
       = ((wes.filter (fun e => decide (e.data_size > 0))).map
           PBOHeaderEntry.data_size).sum) :=
  C2_extract_writes ⟨none, []⟩ wbnd wbnd wext wes wpayloads 47
    (by decide) (by decide) (by decide) (by decide) (by decide) (by decide)
    (by decide) (by decide)

/-- **C3.** The extractor does *not* sanitize path-traversal components:
for the concrete archive holding a single entry named `"..\e"` the write
list uses the normalized relative path `"../e"` verbatim, so under
`os.path.join` the file lands outside the destination root.  (The spec
requires rejection or sanitization; the code has none.) -/
theorem C3_traversal_unsanitized :
    (Option.map Prod.snd (PBOParser.extract_to_directory ⟨none, []⟩
        (mk_archive wbnd []
          [⟨[46, 46, 92, 101], 0, 0, 0, 0, 3, 0⟩] wbnd [1, 2, 3]) 47))
      = some [([46, 46, 47, 101], [1, 2, 3])] ∧
    ((Option.map Prod.snd (PBOParser.extract_to_directory ⟨none, []⟩
        (mk_archive wbnd []
          [⟨[46, 46, 92, 101], 0, 0, 0, 0, 3, 0⟩] wbnd [1, 2, 3]) 47)).getD []).map
        (fun w => w.1.take 3) = [[46, 46, 47]] := by
  decide

/-! ### Truncated headers (C4) -/

theorem read_ulong_some_length (s : List Nat) (v : Nat × List Nat)
    (h : read_ulong s = some v) : v.2.length + 4 = s.length := by
  rcases s with _ | ⟨a, _ | ⟨b, _ | ⟨c, _ | ⟨d, t⟩⟩⟩⟩ <;> simp [read_ulong] at h
  rw [← h]
  simp

/-- A successfully parsed record leaves exactly 20 fewer bytes than remain
after its name. -/
theorem parse_entry_some_length (s : List Nat) (v : PBOHeaderEntry × List Nat)
    (h : PBOHeaderEntry.parse_from_file s = some v) :
    v.2.length + 20 = (read_asciiz s).2.length := by
  simp only [PBOHeaderEntry.parse_from_file, bind, Option.bind, pure] at h
  split at h
  · simp at h
  · next v1 heq1 =>
    dsimp only at h
    split at h
    · simp at h
    · next v2 heq2 =>
      dsimp only at h
      split at h
      · simp at h
      · next v3 heq3 =>
        dsimp only at h
        split at h
        · simp at h
        · next v4 heq4 =>
          dsimp only at h
          split at h
          · simp at h
          · next v5 heq5 =>
            have l1 := read_ulong_some_length _ _ heq1
            have l2 := read_ulong_some_length _ _ heq2
            have l3 := read_ulong_some_length _ _ heq3
            have l4 := read_ulong_some_length _ _ heq4
            have l5 := read_ulong_some_length _ _ heq5
            rw [Option.some.injEq] at h
            have hv : v.2 = v5.2 := by rw [← h]
            rw [hv]
            omega

/-- A record whose remaining bytes after the name are fewer than the 20
bytes of the five u32 fields fails to parse. -/
theorem parse_entry_none_of_short (s : List Nat)
    (h : (read_asciiz s).2.length < 20) :
    PBOHeaderEntry.parse_from_file s = none := by
  cases hx : PBOHeaderEntry.parse_from_file s with
  | none => rfl
  | some v =>
    have := parse_entry_some_length s v hx
    omega

theorem parse_entries_fail (suffix : List Nat)
    (hshort : (read_asciiz suffix).2.length < 20) :
    ∀ (es : List PBOHeaderEntry) (fuel : Nat),
    (∀ e ∈ es, good_entry e) → es.length < fuel →
    parse_header_entries fuel (encode_records es ++ suffix) = none := by
  intro es
  induction es with
  | nil =>
    intro fuel _ hf
    obtain ⟨f, rfl⟩ : ∃ f, fuel = f + 1 := ⟨fuel - 1, by omega⟩
    simp only [encode_records, List.map_nil, List.flatten_nil, List.nil_append,
      parse_header_entries, parse_entry_none_of_short suffix hshort]
  | cons e es ih =>
    intro fuel hes hf
    obtain ⟨f, rfl⟩ : ∃ f, fuel = f + 1 := ⟨fuel - 1, by omega⟩
    obtain ⟨⟨hne, hnz⟩, hfe⟩ := hes e (by simp)
    have harr : encode_records (e :: es) ++ suffix
        = encode_record e ++ (encode_records es ++ suffix) := by
      simp [encode_records, List.append_assoc]
    rw [harr]
    simp only [parse_header_entries, parse_entry_encode e _ hnz hfe]
    have hnb : (zero_off e).is_boundary = false := by
      simp [PBOHeaderEntry.is_boundary, zero_off, hne]
    rw [hnb]
    simp only [Bool.false_eq_true, if_false]
    rw [ih f (fun t ht => hes t (by simp [ht]))
      (by simp only [List.length_cons] at hf; omega)]

/-- **C4.** A byte stream consisting of a well-formed header prefix (first
boundary, extension strings, then well-formed non-boundary records)
followed by a record truncated mid-record — an unterminated name, or a
name followed by fewer than the 20 bytes of the five u32 fields — makes
`parse_pbo` report failure and leave the parser state (in particular its
entry table) unchanged. -/
theorem C4_truncated_header (p : PBOParser) (b1 : PBOHeaderEntry)
    (ext : List (List Nat)) (es : List PBOHeaderEntry) (suffix : List Nat)
    (hb1 : b1.filename = []) (hf1 : good_fields b1)
    (hext : ∀ s ∈ ext, good_str s)
    (hes : ∀ e ∈ es, good_entry e)
    (hshort : (read_asciiz suffix).2.length < 20) :
    p.parse_pbo (encode_record b1 ++ encode_ext ext ++ encode_records es ++ suffix)
      = (false, p) := by
  have hn1 : ∀ b ∈ b1.filename, b ≠ 0 := by simp [hb1]
  have harr : encode_record b1 ++ encode_ext ext ++ encode_records es ++ suffix
      = encode_record b1 ++ (encode_ext ext ++ (encode_records es ++ suffix)) := by
    simp [List.append_assoc]
  have hhdr : PBOHeader.parse_from_file
      (encode_record b1 ++ encode_ext ext ++ encode_records es ++ suffix) = none := by
    rw [harr]
    simp only [PBOHeader.parse_from_file, parse_entry_encode b1 _ hn1 hf1]
    have hbd : (zero_off b1).is_boundary = true := by
      simp [PBOHeaderEntry.is_boundary, zero_off, hb1]
    rw [hbd]
    simp only [if_true]
    have hfuel1 : ext.length < (encode_ext ext ++ (encode_records es ++ suffix)).length + 1 := by
      have := encode_ext_length_ge ext
      simp only [List.length_append]
      omega
    rw [parse_ext_encode ext _ _ hext hfuel1]
    have hfuel2 : es.length < (encode_records es ++ suffix).length + 1 := by
      have := encode_records_length_ge es
      simp only [List.length_append]
      omega
    rw [parse_entries_fail suffix hshort es _ hes hfuel2]
  rw [harr] at hhdr
  simp [PBOParser.parse_pbo, hhdr]

/-- Witness for C4: one good record then the unterminated name `"x"`. -/
theorem C4_truncated_header_witness :
    PBOParser.parse_pbo ⟨none, []⟩
      (encode_record wbnd ++ encode_ext [] ++
        encode_records [⟨[97], 1, 2, 3, 4, 2, 0⟩] ++ [120])
      = (false, ⟨none, []⟩) :=
  C4_truncated_header ⟨none, []⟩ wbnd [] [⟨[97], 1, 2, 3, 4, 2, 0⟩] [120]
    (by decide) (by decide) (by decide) (by decide) (by decide)

/-! ## P3D parser model (src/parsers/p3d_parser.py)

Files are byte lists; reads at absolute offsets model the sequential
`f.seek`/`f.read` calls of the source (each loop reads consecutively from
a fixed seek position).  `struct.unpack` on a short read raises
`struct.error`, modelled by `none`. -/

def MLOD_MAGIC : List Nat := [77, 76, 79, 68]

def ODOL_MAGIC : List Nat := [79, 68, 79, 76]

/-- An IEEE-754 single-precision value as produced by
`struct.unpack('<f', ...)`: a finite value (represented exactly by the
integer `n` such that the value equals `n / 2^150`, so that every float
magnitude comparison is an exact integer comparison), an infinity, or a
NaN. -/
inductive F32Val where
  | finite (n : ℤ)
  | infty
  | nan
deriving DecidableEq, Repr

/-- The rational value denoted by a finite `F32Val` payload. -/
def f32_val (n : ℤ) : ℚ := (n : ℚ) / 2 ^ 150

/-- Decode 4 little-endian bytes as an IEEE-754 single-precision value:
sign, 8-bit exponent, 23-bit fraction; exponent 255 encodes
infinity/NaN, exponent 0 the subnormals `frac·2⁻¹⁴⁹`, and otherwise
`(2²³+frac)·2^(exp-150)`. -/
def decodeF32 (b0 b1 b2 b3 : Nat) : F32Val :=
  let bits := b0 + 256 * b1 + 65536 * b2 + 16777216 * b3
  let expf := bits / 8388608 % 256
  let frac := bits % 8388608
  if expf = 255 then (if frac = 0 then F32Val.infty else F32Val.nan)
  else
    let mag : Nat := if expf = 0 then frac * 2 else (8388608 + frac) * 2 ^ expf
    F32Val.finite (if bits / 2147483648 = 1 then -(mag : ℤ) else (mag : ℤ))

/-- Python `abs(x) < 1000` on a float: false for NaN and infinities;
for a finite value `n/2^150` it is the integer comparison
`|n| < 1000·2^150`. -/
def f32_abs_lt_1000 (v : F32Val) : Bool :=
  match v with
  | F32Val.finite n => decide (n.natAbs < 1000 * 2 ^ 150)
  | _ => false

/-- The comparison performed by `f32_abs_lt_1000` is exactly
`|value| < 1000` on the denoted rational. -/
theorem f32_abs_lt_1000_iff (n : ℤ) :
    f32_abs_lt_1000 (F32Val.finite n) = true ↔ |f32_val n| < 1000 := by
  simp only [f32_abs_lt_1000, decide_eq_true_eq, f32_val]
  rw [abs_div, abs_of_pos (by positivity : (0 : ℚ) < 2 ^ 150),
    div_lt_iff₀ (by positivity : (0 : ℚ) < 2 ^ 150)]
  have h1 : |(n : ℚ)| = ((n.natAbs : Nat) : ℚ) := by
    rw [Int.cast_natAbs, Int.cast_abs]
  rw [h1]
  constructor
  · intro h
    exact_mod_cast h
  · intro h
    exact_mod_cast h

def byteAt (file : List Nat) (i : Nat) : Nat := file.getD i 0

/-- `struct.unpack('<f', f.read(4))` at an absolute offset. -/
def readF32 (file : List Nat) (pos : Nat) : Option F32Val :=
  if pos + 4 ≤ file.length then
    some (decodeF32 (byteAt file pos) (byteAt file (pos + 1))
      (byteAt file (pos + 2)) (byteAt file (pos + 3)))
  else none

/-- `struct.unpack('<H', f.read(2))` at an absolute offset. -/
def readU16 (file : List Nat) (pos : Nat) : Option Nat :=
  if pos + 2 ≤ file.length then
    some (byteAt file pos + 256 * byteAt file (pos + 1))
  else none

/-- `struct.unpack('<I', f.read(4))` at an absolute offset. -/
def readU32 (file : List Nat) (pos : Nat) : Option Nat :=
  if pos + 4 ≤ file.length then
    some (byteAt file pos + 256 * byteAt file (pos + 1)
      + 65536 * byteAt file (pos + 2) + 16777216 * byteAt file (pos + 3))
  else none

/-- The fields of `P3DModel` the geometry sampler populates. -/
structure P3DModel where
  vertices : List (F32Val × F32Val × F32Val)
  faces : List (Nat × Nat × Nat)
  format_type : List Nat
  is_valid : Bool
  geometry_loaded : Bool
deriving DecidableEq, Repr

/-- The vertex-sampling loop shared by both families: read consecutive
3-float tuples, appending while all three coordinates have magnitude
below 1000, stopping at the first failing tuple, a short read, or the
iteration cap. -/
def sample_vertices (file : List Nat) : Nat → Nat → List (F32Val × F32Val × F32Val)
  | _, 0 => []
  | pos, cap + 1 =>
    match readF32 file pos, readF32 file (pos + 4), readF32 file (pos + 8) with
    | some x, some y, some z =>
      if f32_abs_lt_1000 x && f32_abs_lt_1000 y && f32_abs_lt_1000 z then
        (x, y, z) :: sample_vertices file (pos + 12) cap
      else []
    | _, _, _ => []

/-- The face-sampling loop shared by both families: read consecutive
3×u16 triples, accepting while all three indices are below the sampled
vertex count, stopping at the first out-of-range triple, a short read, or
the count bound. -/
def sample_faces (file : List Nat) (vcount : Nat) : Nat → Nat → List (Nat × Nat × Nat)
  | _, 0 => []
  | pos, cnt + 1 =>
    match readU16 file pos, readU16 file (pos + 2), readU16 file (pos + 4) with
    | some a, some b, some c =>
      if a < vcount ∧ b < vcount ∧ c < vcount then
        (a, b, c) :: sample_faces file vcount (pos + 6) cnt
      else []
    | _, _, _ => []

/-- `parse_mlod_geometry`: the LOD-count u32 at offset 8 is read outside
any inner `try`, so a file shorter than 12 bytes yields `None`; vertices
are sampled from offset 100 (cap 100) only when the LOD count is
positive; faces are sampled from offset 300 with count
`min(len(vertices)//3, 200)`. -/
def parse_mlod_geometry (file : List Nat) : Option P3DModel :=
  match readU32 file 8 with
  | none => none
  | some lod_count =>
    let vs := if lod_count > 0 then sample_vertices file 100 100 else []
    let fs := sample_faces file vs.length 300 (min (vs.length / 3) 200)
    some ⟨vs, fs, MLOD_MAGIC, decide (0 < vs.length), decide (0 < vs.length)⟩

/-- `parse_odol_geometry`: vertices from offset 200 (cap 50), faces from
offset 400 with count `min(len(vertices)//3, 150)`; every read is inside
a `try`, so the function always returns a model. -/
def parse_odol_geometry (file : List Nat) : Option P3DModel :=
  let vs := sample_vertices file 200 50
  let fs := sample_faces file vs.length 400 (min (vs.length / 3) 150)
  some ⟨vs, fs, ODOL_MAGIC, decide (0 < vs.length), decide (0 < vs.length)⟩

/-- `is_valid_p3d`: the first (up to) 4 bytes must equal one of the two
magic values; any exception yields `False`, never an error. -/
def is_valid_p3d (file : List Nat) : Bool :=
  decide (file.take 4 = MLOD_MAGIC) || decide (file.take 4 = ODOL_MAGIC)

/-- `parse_p3d_header`: magic then a u32 version (plus the file size); a
read failure is caught and yields `None`. -/
def parse_p3d_header (file : List Nat) : Option (List Nat × Nat × Nat) :=
  if file.take 4 = MLOD_MAGIC ∨ file.take 4 = ODOL_MAGIC then
    match readU32 file 4 with
    | none => none
    | some version => some (file.take 4, version, file.length)
  else none

/-- `get_basic_model_info` with the two family samplers abstracted, so
that "the geometry sampler is never invoked" can be stated as
independence from the sampler arguments. -/
def get_basic_model_info_gen
    (mlod_sampler odol_sampler : List Nat → Option P3DModel)
    (file : List Nat) : Option P3DModel :=
  if !is_valid_p3d file then none
  else
    match parse_p3d_header file with
    | none => none
    | some (fmt, _, _) =>
      let model :=
        if fmt = MLOD_MAGIC then mlod_sampler file
        else if fmt = ODOL_MAGIC then odol_sampler file
        else none
      model.map (fun m => { m with format_type := fmt })

/-- `get_basic_model_info` as in the source. -/
def get_basic_model_info : List Nat → Option P3DModel :=
  get_basic_model_info_gen parse_mlod_geometry parse_odol_geometry

/-- **C5.** A file whose first 4 bytes match neither magic classifies as
not-a-model (`is_valid_p3d` returns `False`, raising nothing), and
classify-and-sample returns `None` without invoking either geometry
sampler (the result is independent of the sampler functions). -/
theorem C5_unrecognized_magic (file : List Nat)
    (mlod_sampler odol_sampler : List Nat → Option P3DModel)
    (h1 : file.take 4 ≠ MLOD_MAGIC) (h2 : file.take 4 ≠ ODOL_MAGIC) :
    is_valid_p3d file = false ∧
    get_basic_model_info_gen mlod_sampler odol_sampler file = none := by
  have hv : is_valid_p3d file = false := by
    simp [is_valid_p3d, h1, h2]
  exact ⟨hv, by simp [get_basic_model_info_gen, hv]⟩

/-- Witness for C5 on a 4-byte file with an unrecognized magic, with the
real samplers as the sampler arguments. -/
theorem C5_unrecognized_magic_witness :
    is_valid_p3d [1, 2, 3, 4] = false ∧
    get_basic_model_info_gen parse_mlod_geometry parse_odol_geometry
      [1, 2, 3, 4] = none :=
  C5_unrecognized_magic [1, 2, 3, 4] parse_mlod_geometry parse_odol_geometry
    (by decide) (by decide)

/-- **C10.** A file with a recognized magic but fewer than 8 bytes makes
`parse_p3d_header` catch the version-read failure and return `None`,
and classify-and-sample returns `None` (for any samplers) instead of
raising. -/
theorem C10_truncated_after_magic (file : List Nat)
    (mlod_sampler odol_sampler : List Nat → Option P3DModel)
    (hm : file.take 4 = MLOD_MAGIC ∨ file.take 4 = ODOL_MAGIC)
    (hlen : file.length < 8) :
    parse_p3d_header file = none ∧
    get_basic_model_info_gen mlod_sampler odol_sampler file = none := by
  have hrd : readU32 file 4 = none := by
    simp only [readU32, ite_eq_right_iff]
    intro hle
    omega
  have hph : parse_p3d_header file = none := by
    simp [parse_p3d_header, hm, hrd]
  refine ⟨hph, ?_⟩
  by_cases hv : is_valid_p3d file <;> simp [get_basic_model_info_gen, hv, hph]

/-- Witness for C10 on the 4-byte file consisting of just the MLOD
magic. -/
theorem C10_truncated_after_magic_witness :
    parse_p3d_header [77, 76, 79, 68] = none ∧
    get_basic_model_info_gen parse_mlod_geometry parse_odol_geometry
      [77, 76, 79, 68] = none :=
  C10_truncated_after_magic [77, 76, 79, 68] parse_mlod_geometry
    parse_odol_geometry (by decide) (by decide)

/-! ### Face validity (C7) -/

theorem sample_faces_valid (file : List Nat) (vcount : Nat) :
    ∀ (cnt pos : Nat) (f : Nat × Nat × Nat),
      f ∈ sample_faces file vcount pos cnt →
      f.1 < vcount ∧ f.2.1 < vcount ∧ f.2.2 < vcount := by
  intro cnt
  induction cnt with
  | zero =>
    intro pos f hf
    simp [sample_faces] at hf
  | succ n ih =>
    intro pos f hf
    simp only [sample_faces] at hf
    rcases h1 : readU16 file pos with _ | a <;> rw [h1] at hf
    · simp at hf
    · rcases h2 : readU16 file (pos + 2) with _ | b <;> rw [h2] at hf
      · simp at hf
      · rcases h3 : readU16 file (pos + 4) with _ | c <;> rw [h3] at hf
        · simp at hf
        · dsimp only at hf
          by_cases hcond : a < vcount ∧ b < vcount ∧ c < vcount
          · rw [if_pos hcond] at hf
            rcases List.mem_cons.mp hf with rfl | hmem
            · exact hcond
            · exact ih _ f hmem
          · rw [if_neg hcond] at hf
            simp at hf

/-- **C7.** Every face in a model returned by either geometry sampler is a
3-index tuple whose indices are all strictly below the sampled vertex
count (face acceptance stops at the first out-of-range triple, so no face
with an invalid index is ever in the list). -/
theorem C7_face_indices_valid (file : List Nat) (m : P3DModel)
    (h : parse_mlod_geometry file = some m ∨ parse_odol_geometry file = some m) :
    ∀ f ∈ m.faces,
      f.1 < m.vertices.length ∧ f.2.1 < m.vertices.length ∧
      f.2.2 < m.vertices.length := by
  intro f hf
  rcases h with h | h
  · simp only [parse_mlod_geometry] at h
    rcases hrd : readU32 file 8 with _ | lc <;> rw [hrd] at h
    · simp at h
    · rw [Option.some.injEq] at h
      subst h
      exact sample_faces_valid file _ _ _ f hf
  · simp only [parse_odol_geometry] at h
    rw [Option.some.injEq] at h
    subst h
    exact sample_faces_valid file _ _ _ f hf

def dM : P3DModel := ⟨[], [], [], false, false⟩

/-- Witness for C7: a 406-byte all-zero ODOL body samples 17 vertices and
one face `(0,0,0)`, whose indices the theorem bounds. -/
theorem C7_face_indices_valid_witness :
    ((0, 0, 0) : Nat × Nat × Nat).1
        < ((parse_odol_geometry (List.replicate 406 0)).getD dM).vertices.length ∧
    ((0, 0, 0) : Nat × Nat × Nat).2.1
        < ((parse_odol_geometry (List.replicate 406 0)).getD dM).vertices.length ∧
    ((0, 0, 0) : Nat × Nat × Nat).2.2
        < ((parse_odol_geometry (List.replicate 406 0)).getD dM).vertices.length :=
  C7_face_indices_valid (List.replicate 406 0)
    ((parse_odol_geometry (List.replicate 406 0)).getD dM)
    (Or.inr (by decide)) (0, 0, 0) (by decide)

/-! ### Vertex sampling (C6) -/

/-- The three consecutive 4-byte float reads of one loop iteration. -/
def vertex_tuple_at (file : List Nat) (pos : Nat) :
    Option (F32Val × F32Val × F32Val) :=
  match readF32 file pos, readF32 file (pos + 4), readF32 file (pos + 8) with
  | some x, some y, some z => some (x, y, z)
  | _, _, _ => none

/-- The acceptance condition of the vertex loop. -/
def tuple_ok (t : F32Val × F32Val × F32Val) : Bool :=
  f32_abs_lt_1000 t.1 && f32_abs_lt_1000 t.2.1 && f32_abs_lt_1000 t.2.2

/-- Some coordinate of the tuple is a finite value whose magnitude
exceeds 1000. -/
def tuple_exceeds (t : F32Val × F32Val × F32Val) : Prop :=
  ∃ n : ℤ,
    (t.1 = F32Val.finite n ∨ t.2.1 = F32Val.finite n ∨ t.2.2 = F32Val.finite n) ∧
    1000 < |f32_val n|

theorem tuple_exceeds_not_ok (t : F32Val × F32Val × F32Val)
    (h : tuple_exceeds t) : tuple_ok t = false := by
  obtain ⟨n, hpos, hq⟩ := h
  have habs : f32_abs_lt_1000 (F32Val.finite n) = false := by
    rw [Bool.eq_false_iff, Ne, f32_abs_lt_1000_iff]
    intro hlt
    linarith
  rcases hpos with h | h | h <;> simp [tuple_ok, h, habs]

theorem sample_vertices_succ (file : List Nat) (pos cap : Nat) :
    sample_vertices file pos (cap + 1)
      = match vertex_tuple_at file pos with
        | some t =>
          if tuple_ok t then t :: sample_vertices file (pos + 12) cap else []
        | none => [] := by
  simp only [sample_vertices, vertex_tuple_at, tuple_ok]
  rcases readF32 file pos with _ | x
  · rfl
  · rcases readF32 file (pos + 4) with _ | y
    · rfl
    · rcases readF32 file (pos + 8) with _ | z
      · rfl
      · rfl

/-- The vertex loop returns exactly the tuples read before the first
rejected tuple, when every earlier tuple is readable and accepted, the
next tuple is readable but rejected, and the cap is not yet reached. -/
theorem sample_vertices_exact (file : List Nat) :
    ∀ (ts : List (F32Val × F32Val × F32Val)) (pos cap : Nat)
      (t' : F32Val × F32Val × F32Val),
    (∀ i (hi : i < ts.length),
        vertex_tuple_at file (pos + 12 * i) = some (ts.get ⟨i, hi⟩) ∧
        tuple_ok (ts.get ⟨i, hi⟩) = true) →
    vertex_tuple_at file (pos + 12 * ts.length) = some t' →
    tuple_ok t' = false →
    ts.length < cap →
    sample_vertices file pos cap = ts := by
  intro ts
  induction ts with
  | nil =>
    intro pos cap t' hok ht' hbad hcap
    obtain ⟨c, rfl⟩ : ∃ c, cap = c + 1 := ⟨cap - 1, by omega⟩
    rw [sample_vertices_succ]
    have ht0 : vertex_tuple_at file pos = some t' := by simpa using ht'
    rw [ht0]
    simp [hbad]
  | cons t ts ih =>
    intro pos cap t' hok ht' hbad hcap
    obtain ⟨c, rfl⟩ : ∃ c, cap = c + 1 := ⟨cap - 1, by omega⟩
    have h0 := hok 0 (by simp)
    have h0a : vertex_tuple_at file pos = some t := by
      have := h0.1
      simpa using this
    have h0b : tuple_ok t = true := by
      have := h0.2
      simpa using this
    rw [sample_vertices_succ, h0a]
    have hr : sample_vertices file (pos + 12) c = ts := by
      apply ih (pos + 12) c t'
      · intro i hi
        have hstep := hok (i + 1) (by simp only [List.length_cons]; omega)
        have harith : pos + 12 * (i + 1) = pos + 12 + 12 * i := by ring
        rw [harith] at hstep
        simpa using hstep
      · have harith : pos + 12 * (t :: ts).length = pos + 12 + 12 * ts.length := by
          simp only [List.length_cons]
          ring
        rw [harith] at ht'
        exact ht'
      · exact hbad
      · simp only [List.length_cons] at hcap
        omega
    simp [h0b, hr]

/-- **C6 (amended).** For each family, vertex sampling reads consecutive
little-endian 3-float tuples from the family-dependent fixed offset
(100 for MLOD, 200 for ODOL) and stops at the first tuple with a
coordinate of magnitude exceeding 1000 or at the family-dependent cap
(100 for MLOD, 50 for ODOL): when the first `k-1` tuples are accepted and
the `k`-th contains a finite coordinate of magnitude exceeding 1000, the
returned vertex list is exactly those `k-1` tuples.  For the MLOD family
this holds provided the u32 LOD count at offset 8 is nonzero (the code
skips vertex sampling entirely when it is zero). -/
theorem C6_vertex_sampling_stops :
    (∀ (file : List Nat) (ts : List (F32Val × F32Val × F32Val))
        (t' : F32Val × F32Val × F32Val),
      12 ≤ file.length →
      0 < (readU32 file 8).getD 0 →
      (∀ i (hi : i < ts.length),
        vertex_tuple_at file (100 + 12 * i) = some (ts.get ⟨i, hi⟩) ∧
        tuple_ok (ts.get ⟨i, hi⟩) = true) →
      vertex_tuple_at file (100 + 12 * ts.length) = some t' →
      tuple_exceeds t' →
      ts.length < 100 →
      (parse_mlod_geometry file).map P3DModel.vertices = some ts) ∧
    (∀ (file : List Nat) (ts : List (F32Val × F32Val × F32Val))
        (t' : F32Val × F32Val × F32Val),
      (∀ i (hi : i < ts.length),
        vertex_tuple_at file (200 + 12 * i) = some (ts.get ⟨i, hi⟩) ∧
        tuple_ok (ts.get ⟨i, hi⟩) = true) →
      vertex_tuple_at file (200 + 12 * ts.length) = some t' →
      tuple_exceeds t' →
      ts.length < 50 →
      (parse_odol_geometry file).map P3DModel.vertices = some ts) := by
  constructor
  · intro file ts t' hlen hlc hok ht' hexc hcap
    have hsv := sample_vertices_exact file ts 100 100 t' hok ht'
      (tuple_exceeds_not_ok t' hexc) hcap
    have hrd : readU32 file 8 = some ((readU32 file 8).getD 0) := by
      simp only [readU32]
      rw [if_pos (by omega : 8 + 4 ≤ file.length)]
      rfl
    simp only [parse_mlod_geometry]
    rw [hrd]
    simp only [Option.map_some]
    rw [if_pos hlc, hsv]
    rfl
  · intro file ts t' hok ht' hexc hcap
    have hsv := sample_vertices_exact file ts 200 50 t' hok ht'
      (tuple_exceeds_not_ok t' hexc) hcap
    simp only [parse_odol_geometry]
    rw [hsv]
    rfl

/-- 124-byte MLOD-magic file with LOD count 1: one all-zero vertex tuple
at offset 100, then a tuple whose first float is 1024.0. -/
def wfileM : List Nat :=
  MLOD_MAGIC ++ [0, 0, 0, 0] ++ [1, 0, 0, 0] ++ List.replicate 88 0 ++
    List.replicate 12 0 ++ [0, 0, 128, 68] ++ List.replicate 8 0

/-- Same file but with LOD count 0. -/
def wfileZ : List Nat :=
  MLOD_MAGIC ++ List.replicate 108 0 ++ [0, 0, 128, 68] ++ List.replicate 8 0

/-- Witness for C6: on `wfileM` sampling returns exactly the one zero
tuple read before the 1024.0 tuple. -/
theorem C6_vertex_sampling_stops_witness :
    (parse_mlod_geometry wfileM).map P3DModel.vertices
      = some [(F32Val.finite 0, F32Val.finite 0, F32Val.finite 0)] :=
  C6_vertex_sampling_stops.1 wfileM
    [(F32Val.finite 0, F32Val.finite 0, F32Val.finite 0)]
    (F32Val.finite (2 ^ 160), F32Val.finite 0, F32Val.finite 0)
    (by decide) (by decide) (by decide) (by decide)
    ⟨2 ^ 160, Or.inl rfl, by
      have h : f32_val (2 ^ 160) = 2 ^ 10 := by
        rw [f32_val]
        push_cast
        rw [div_eq_iff (by positivity : ((2 : ℚ) ^ 150) ≠ 0), ← pow_add]
        norm_num
      rw [h]
      norm_num⟩
    (by decide)

/-- Counterexample to C6 as literally stated: `wfileZ` is a classified
MLOD file whose first sampled tuple would be accepted and whose second
exceeds magnitude 1000, yet the sampler returns an empty vertex list
(not the one accepted tuple), because the LOD count at offset 8 is
zero and the MLOD vertex loop is skipped. -/
theorem C6_lod_zero_counterexample :
    is_valid_p3d wfileZ = true ∧
    vertex_tuple_at wfileZ 100
      = some (F32Val.finite 0, F32Val.finite 0, F32Val.finite 0) ∧
    tuple_ok (F32Val.finite 0, F32Val.finite 0, F32Val.finite 0) = true ∧
    vertex_tuple_at wfileZ 112
      = some (F32Val.finite (2 ^ 160), F32Val.finite 0, F32Val.finite 0) ∧
    tuple_exceeds (F32Val.finite (2 ^ 160), F32Val.finite 0, F32Val.finite 0) ∧
    (get_basic_model_info wfileZ).map P3DModel.vertices = some [] ∧
    (get_basic_model_info wfileZ).map P3DModel.vertices
      ≠ some [(F32Val.finite 0, F32Val.finite 0, F32Val.finite 0)] := by
  refine ⟨by decide, by decide, by decide, by decide, ?_, by decide, by decide⟩
  refine ⟨2 ^ 160, Or.inl rfl, ?_⟩
  have h : f32_val (2 ^ 160) = 2 ^ 10 := by
    rw [f32_val]
    push_cast
    rw [div_eq_iff (by positivity : ((2 : ℚ) ^ 150) ≠ 0), ← pow_add]
    norm_num
  rw [h]
  norm_num

/-! ## Class-to-model correlation, filename-similarity fallback
(src/parsers/p3d_parser.py, `P3DParser.map_class_to_p3d`) -/

def lowerStr (s : List Char) : List Char := s.map Char.toLower

/-- Python `big.startswith(small)`. -/
def startsWithStr : List Char → List Char → Bool
  | [], _ => true
  | _ :: _, [] => false
  | a :: as, b :: bs => a = b && startsWithStr as bs

/-- Python `small in big` (substring containment; the empty string is in
everything). -/
def containsSub (small : List Char) : List Char → Bool
  | [] => startsWithStr small []
  | b :: bs => startsWithStr small (b :: bs) || containsSub small bs

/-- `Path(p).name` on a POSIX host: everything after the last slash. -/
def pathName (p : List Char) : List Char :=
  (p.reverse.takeWhile (fun c => c ≠ '/')).reverse

/-- `Path(p).stem`: the final component minus its suffix; pathlib takes
the suffix from the last dot index `i` only when `0 < i < len(name)-1`. -/
def stem (p : List Char) : List Char :=
  let n := pathName p
  let k := (n.reverse.takeWhile (fun c => c ≠ '.')).length
  if 0 < k ∧ k + 1 < n.length then n.take (n.length - 1 - k) else n

/-- First-loop condition: exact case-insensitive stem equality. -/
def exact_stem_match (cls p : List Char) : Bool :=
  lowerStr (stem p) = lowerStr cls

/-- `class_lower.replace('_','').replace('-','')`. -/
def removeUH (s : List Char) : List Char :=
  s.filter (fun c => !(c = '_' || c = '-'))

/-- Second-loop first condition: substring containment either way after
stripping underscores and hyphens. -/
def substr_match (cls p : List Char) : Bool :=
  let cc := removeUH (lowerStr cls)
  let cf := removeUH (lowerStr (stem p))
  containsSub cc cf || containsSub cf cc

/-- Second-loop second condition: the first 4 or last 4 characters of the
lowered class name (kept only when at least 3 long) occur in the lowered
stem. -/
def affix_match (cls p : List Char) : Bool :=
  let cl := lowerStr cls
  let fn := lowerStr (stem p)
  (decide (3 ≤ (cl.take 4).length) && containsSub (cl.take 4) fn) ||
    (decide (3 ≤ (cl.drop (cl.length - 4)).length)
      && containsSub (cl.drop (cl.length - 4)) fn)

/-- The first loop of `map_class_to_p3d`. -/
def map_first_loop (cls : List Char) : List (List Char) → Option (List Char)
  | [] => none
  | p :: ps => if exact_stem_match cls p then some p else map_first_loop cls ps

/-- The second loop of `map_class_to_p3d`: per candidate, the substring
test and then the affix test. -/
def map_second_loop (cls : List Char) : List (List Char) → Option (List Char)
  | [] => none
  | p :: ps =>
    if substr_match cls p then some p
    else if affix_match cls p then some p
    else map_second_loop cls ps

/-- `P3DParser.map_class_to_p3d`. -/
def map_class_to_p3d (cls : List Char) (files : List (List Char)) :
    Option (List Char) :=
  match map_first_loop cls files with
  | some p => some p
  | none => map_second_loop cls files

/-- Modelled from the spec's words, for comparison: the three strategies
applied *in order*, each as a full pass over all candidates. -/
def map_class_spec_ordered (cls : List Char) (files : List (List Char)) :
    Option (List Char) :=
  match files.find? (fun p => exact_stem_match cls p) with
  | some p => some p
  | none =>
    match files.find? (fun p => substr_match cls p) with
    | some p => some p
    | none => files.find? (fun p => affix_match cls p)

theorem map_first_loop_eq_find (cls : List Char) :
    ∀ files, map_first_loop cls files
      = files.find? (fun p => exact_stem_match cls p) := by
  intro files
  induction files with
  | nil => rfl
  | cons p ps ih =>
    simp only [map_first_loop, List.find?_cons]
    by_cases h : exact_stem_match cls p
    · simp [h]
    · simp only [Bool.not_eq_true] at h
      simp [h, ih]

theorem map_second_loop_eq_find (cls : List Char) :
    ∀ files, map_second_loop cls files
      = files.find? (fun p => substr_match cls p || affix_match cls p) := by
  intro files
  induction files with
  | nil => rfl
  | cons p ps ih =>
    simp only [map_second_loop, List.find?_cons]
    by_cases h1 : substr_match cls p
    · simp [h1]
    · simp only [Bool.not_eq_true] at h1
      by_cases h2 : affix_match cls p
      · simp [h1, h2]
      · simp only [Bool.not_eq_true] at h2
        simp [h1, h2, ih]

/-- **C9 (amended).** The fallback applies exact case-insensitive stem
equality over all candidates first; then a *single* pass over candidates
in discovery order in which a candidate wins if it matches by substring
containment or by the 3-4-character affix test (the two fallback tests
are fused per candidate, not run as separate ordered passes).  In
particular class `M4A1` with candidate `m4a1_reload.p3d` (no exact-stem
candidate) resolves to that file via substring containment. -/
theorem C9_filename_fallback :
    (∀ (cls : List Char) (files : List (List Char)),
      map_class_to_p3d cls files
        = match files.find? (fun p => exact_stem_match cls p) with
          | some p => some p
          | none =>
            files.find? (fun p => substr_match cls p || affix_match cls p)) ∧
    map_class_to_p3d "M4A1".toList ["m4a1_reload.p3d".toList]
      = some "m4a1_reload.p3d".toList ∧
    exact_stem_match "M4A1".toList "m4a1_reload.p3d".toList = false ∧
    substr_match "M4A1".toList "m4a1_reload.p3d".toList = true := by
  refine ⟨?_, by decide, by decide, by decide⟩
  intro cls files
  rw [map_class_to_p3d, map_first_loop_eq_find, map_second_loop_eq_find]

/-- Candidate list on which the claimed strategy ordering and the code
disagree: the first file matches only by affix, the second by
substring. -/
def cxfiles : List (List Char) := ["xk_74x.p3d".toList, "ak_74_rifle.p3d".toList]

/-- Counterexample to C9 as stated: for class `AK_74`, neither file
matches by exact stem; `ak_74_rifle.p3d` matches by substring containment
and `xk_74x.p3d` only by the affix test, so the claimed ordering (all
substring candidates before any affix candidate) would return
`ak_74_rifle.p3d` — but the code's fused per-candidate loop returns
`xk_74x.p3d`. -/
theorem C9_strategy_order_counterexample :
    map_class_to_p3d "AK_74".toList cxfiles = some "xk_74x.p3d".toList ∧
    exact_stem_match "AK_74".toList "xk_74x.p3d".toList = false ∧
    exact_stem_match "AK_74".toList "ak_74_rifle.p3d".toList = false ∧
    substr_match "AK_74".toList "xk_74x.p3d".toList = false ∧
    affix_match "AK_74".toList "xk_74x.p3d".toList = true ∧
    substr_match "AK_74".toList "ak_74_rifle.p3d".toList = true ∧
    map_class_spec_ordered "AK_74".toList cxfiles
      = some "ak_74_rifle.p3d".toList := by
  decide

/-! ## Configuration-text scan
(src/parsers/config_parser.py, `ConfigParser.parse_config_bin`)

The two regular expressions of the source,
`model\s*=\s*["\x27]([^"\x27]+\.p3d)["\x27]` and `class\s+(\w+)` (both
IGNORECASE), are implemented directly as character scanners with
`re.finditer`'s leftmost, non-overlapping semantics.  For the model
pattern, the group `[^"\x27]+\.p3d` consists of non-quote characters and
must be followed by a quote, so the only candidate for the group is the
maximal run of non-quote characters after the opening quote, and the
match succeeds exactly when that run ends (case-insensitively) in
`.p3d`, has length at least 5, and is followed by a quote. -/

def quoteS : Char := Char.ofNat 39

/-- Python `\s` (ASCII): space, tab, newline, carriage return, vertical
tab, form feed. -/
def isSpaceChar (c : Char) : Bool :=
  c.toNat = 32 || c.toNat = 9 || c.toNat = 10 || c.toNat = 13 ||
    c.toNat = 11 || c.toNat = 12

/-- Python `\w` (ASCII): letters, digits, underscore. -/
def isWordChar (c : Char) : Bool :=
  (97 ≤ c.toNat && c.toNat ≤ 122) || (65 ≤ c.toNat && c.toNat ≤ 90) ||
    (48 ≤ c.toNat && c.toNat ≤ 57) || c.toNat = 95

/-- The character class `["\x27]`. -/
def isQuoteChar (c : Char) : Bool := c.toNat = 34 || c.toNat = 39

/-- Case-insensitive literal match at the head of the input, returning
the remaining input. -/
def matchCI : List Char → List Char → Option (List Char)
  | [], s => some s
  | _ :: _, [] => none
  | l :: ls, c :: cs => if l.toLower = c.toLower then matchCI ls cs else none

/-- One attempted match of `class\s+(\w+)` at the head of `s`: the
captured identifier (the maximal word run) and the match length. -/
def matchClassAt (s : List Char) : Option (List Char × Nat) :=
  match matchCI "class".toList s with
  | none => none
  | some s1 =>
    let ws := s1.takeWhile isSpaceChar
    if ws.length = 0 then none
    else
      let s2 := s1.drop ws.length
      let w := s2.takeWhile isWordChar
      if w.length = 0 then none
      else some (w, 5 + ws.length + w.length)

/-- One attempted match of the model pattern at the head of `s`: the
captured path and the match length. -/
def matchModelAt (s : List Char) : Option (List Char × Nat) :=
  match matchCI "model".toList s with
  | none => none
  | some s1 =>
    let ws1 := s1.takeWhile isSpaceChar
    match s1.drop ws1.length with
    | [] => none
    | e :: s2 =>
      if e.toNat = 61 then
        let ws2 := s2.takeWhile isSpaceChar
        match s2.drop ws2.length with
        | [] => none
        | q :: s3 =>
          if isQuoteChar q then
            let content := s3.takeWhile (fun c => !isQuoteChar c)
            let after := s3.drop content.length
            if after ≠ [] ∧ 5 ≤ content.length ∧
                lowerStr (content.drop (content.length - 4)) = ".p3d".toList then
              some (content,
                5 + ws1.length + 1 + ws2.length + 1 + content.length + 1)
            else none
          else none
      else none

/-- `re.finditer` over the model pattern: positions are scanned left to
right and a match makes scanning resume after it (`skip` counts the
remaining characters of the current match). -/
def scanModel : List Char → Nat → Nat → List (Nat × List Char)
  | [], _, _ => []
  | _ :: rest, pos, skip + 1 => scanModel rest (pos + 1) skip
  | c :: rest, pos, 0 =>
    match matchModelAt (c :: rest) with
    | some (g, len) => (pos, g) :: scanModel rest (pos + 1) (len - 1)
    | none => scanModel rest (pos + 1) 0

/-- `re.finditer` over the class pattern, keeping the captured
identifiers in match order. -/
def scanClassTok : List Char → Nat → List (List Char)
  | [], _ => []
  | _ :: rest, skip + 1 => scanClassTok rest skip
  | c :: rest, 0 =>
    match matchClassAt (c :: rest) with
    | some (w, len) => w :: scanClassTok rest (len - 1)
    | none => scanClassTok rest 0

/-- Python dict assignment `d[k] = v`: replaces in place, else appends. -/
def dictInsert : List (List Char × List Char) → List Char → List Char →
    List (List Char × List Char)
  | [], k, v => [(k, v)]
  | (k1, v1) :: t, k, v =>
    if k1 = k then (k, v) :: t else (k1, v1) :: dictInsert t k v

/-- Backslash-to-forward-slash normalization of a captured path. -/
def normSlash (p : List Char) : List Char :=
  p.map (fun c => if c = '\\' then '/' else c)

/-- `ConfigParser.parse_config_bin` on already-decoded text: for each
model match, look back at most 1000 characters
(`text[max(0,start-1000):start]`), take the last class match in that
window, and bind its identifier to the captured path with backslashes
normalized. -/
def parse_config_bin (text : List Char) : List (List Char × List Char) :=
  (scanModel text 0 0).foldl
    (fun d m =>
      match (scanClassTok ((text.take m.1).drop (m.1 - 1000)) 0).getLast? with
      | some cls => dictInsert d cls (normSlash m.2)
      | none => d)
    []

/-- Text whose only `class` token sits more than 1000 characters before
the model assignment. -/
def cxtext : List Char :=
  "class Foo;".toList ++ List.replicate 1001 ' ' ++ "model=\"a.p3d\"".toList

/-- Counterexample to C8 as stated: in `cxtext` the model pattern matches
at position 1011 and the nearest preceding `class` token (`Foo`, found by
scanning backward over the whole prefix) exists, yet the scan produces no
binding at all, because the code only looks back 1000 characters. -/
theorem C8_window_counterexample :
    scanModel cxtext 0 0 = [(1011, "a.p3d".toList)] ∧
    scanClassTok (cxtext.take 1011) 0 = ["Foo".toList] ∧
    parse_config_bin cxtext = [] := by
  decide

/-! ### Stepping lemmas for the scanners -/

theorem scanModel_cons_none (c : Char) (rest : List Char) (pos : Nat)
    (h : matchModelAt (c :: rest) = none) :
    scanModel (c :: rest) pos 0 = scanModel rest (pos + 1) 0 := by
  simp only [scanModel, h]

theorem scanModel_cons_some (c : Char) (rest : List Char) (pos : Nat)
    (g : List Char) (len : Nat) (h : matchModelAt (c :: rest) = some (g, len)) :
    scanModel (c :: rest) pos 0 = (pos, g) :: scanModel rest (pos + 1) (len - 1) := by
  simp only [scanModel, h]

theorem scanModel_skip (v : List Char) :
    ∀ (u : List Char) (pos : Nat),
      scanModel (u ++ v) pos u.length = scanModel v (pos + u.length) 0 := by
  intro u
  induction u with
  | nil => intro pos; simp
  | cons x u ih =>
    intro pos
    simp only [List.cons_append, List.length_cons, scanModel, List.append_eq]
    rw [ih (pos + 1)]
    have harith : pos + 1 + u.length = pos + (u.length + 1) := by omega
    rw [harith]

theorem scanClassTok_cons_none (c : Char) (rest : List Char)
    (h : matchClassAt (c :: rest) = none) :
    scanClassTok (c :: rest) 0 = scanClassTok rest 0 := by
  simp only [scanClassTok, h]

theorem scanClassTok_cons_some (c : Char) (rest : List Char)
    (w : List Char) (len : Nat) (h : matchClassAt (c :: rest) = some (w, len)) :
    scanClassTok (c :: rest) 0 = w :: scanClassTok rest (len - 1) := by
  simp only [scanClassTok, h]

theorem scanClassTok_skip (v : List Char) :
    ∀ (u : List Char), scanClassTok (u ++ v) u.length = scanClassTok v 0 := by
  intro u
  induction u with
  | nil => simp
  | cons x u ih =>
    simp only [List.cons_append, List.length_cons, scanClassTok]
    exact ih

/-- A case-insensitive literal match against `w ++ t` either fails, or
consumes entirely within `w`, or consumes all of `w` and continues into
`t`. -/
theorem matchCI_cases (lit : List Char) :
    ∀ (w t : List Char),
      matchCI lit (w ++ t) = none
      ∨ (lit.length ≤ w.length ∧ matchCI lit (w ++ t) = some (w.drop lit.length ++ t))
      ∨ (w.length < lit.length ∧ matchCI lit (w ++ t) = matchCI (lit.drop w.length) t) := by
  induction lit with
  | nil =>
    intro w t
    right; left
    exact ⟨by simp, by simp [matchCI]⟩
  | cons l ls ih =>
    intro w t
    cases w with
    | nil =>
      right; right
      exact ⟨by simp, by simp⟩
    | cons a as =>
      by_cases h : l.toLower = a.toLower
      · rcases ih as t with h1 | ⟨h2a, h2b⟩ | ⟨h3a, h3b⟩
        · left
          simp only [List.cons_append, matchCI, if_pos h]
          exact h1
        · right; left
          refine ⟨by simp only [List.length_cons]; omega, ?_⟩
          simp only [List.cons_append, matchCI, if_pos h, List.append_eq, h2b,
            List.length_cons, List.drop_succ_cons]
        · right; right
          refine ⟨by simp only [List.length_cons]; omega, ?_⟩
          simp only [List.cons_append, matchCI, if_pos h, List.append_eq, h3b,
            List.length_cons, List.drop_succ_cons]
      · left
        simp only [List.cons_append, matchCI, if_neg h]

theorem word_not_space (ch : Char) (h : isWordChar ch = true) :
    isSpaceChar ch = false := by
  simp only [isWordChar, Bool.or_eq_true, Bool.and_eq_true, decide_eq_true_eq] at h
  rw [isSpaceChar, Bool.eq_false_iff]
  intro hc
  simp only [Bool.or_eq_true, decide_eq_true_eq] at hc
  omega

theorem word_ne_eq_sign (ch : Char) (h : isWordChar ch = true) :
    (ch.toNat = 61) = False := by
  simp only [isWordChar, Bool.or_eq_true, Bool.and_eq_true, decide_eq_true_eq] at h
  simp only [eq_iff_iff, iff_false]
  omega

theorem word_not_quote (ch : Char) (h : isWordChar ch = true) :
    isQuoteChar ch = false := by
  simp only [isWordChar, Bool.or_eq_true, Bool.and_eq_true, decide_eq_true_eq] at h
  rw [isQuoteChar, Bool.eq_false_iff]
  intro hc
  simp only [Bool.or_eq_true, decide_eq_true_eq] at hc
  omega

theorem takeWhile_all_stop (p : Char → Bool) (w : List Char) (x : Char)
    (r : List Char) (hall : ∀ ch ∈ w, p ch = true) (hx : p x = false) :
    (w ++ x :: r).takeWhile p = w := by
  induction w with
  | nil => simp [List.takeWhile_cons, hx]
  | cons a w ih =>
    have ha : p a = true := hall a (by simp)
    simp only [List.cons_append, List.takeWhile_cons, ha, if_true]
    rw [ih (fun ch hch => hall ch (by simp [hch]))]

/-! ### Failure lemmas for the model pattern -/

theorem matchCI_model_head (c : Char) (r : List Char) (h : c.toLower ≠ 'm') :
    matchCI "model".toList (c :: r) = none := by
  have hm : ('m' : Char).toLower = 'm' := by decide
  rw [show "model".toList = 'm' :: "odel".toList from rfl]
  simp only [matchCI]
  rw [if_neg (fun heq => h (by rw [← hm]; exact heq.symm))]

theorem matchModelAt_none_head (c : Char) (r : List Char) (h : c.toLower ≠ 'm') :
    matchModelAt (c :: r) = none := by
  simp only [matchModelAt, matchCI_model_head c r h]

theorem scanModel_skip_run (v : List Char) :
    ∀ (u : List Char) (pos : Nat), (∀ ch ∈ u, ch.toLower ≠ 'm') →
      scanModel (u ++ v) pos 0 = scanModel v (pos + u.length) 0 := by
  intro u
  induction u with
  | nil => intro pos _; simp
  | cons x u ih =>
    intro pos hu
    rw [List.cons_append,
      scanModel_cons_none _ _ _ (matchModelAt_none_head x _ (hu x (by simp))),
      ih (pos + 1) (fun ch hch => hu ch (by simp [hch]))]
    have harith : pos + 1 + u.length = pos + (x :: u).length := by
      simp only [List.length_cons]
      omega
    rw [harith]

/-- A word-character run followed by `" ; "` can never start a model
match: either the literal fails, or what follows the consumed part is not
`\s*=`. -/
theorem matchModel_none_word_sep (w : List Char) (r : List Char)
    (hw : ∀ ch ∈ w, isWordChar ch = true) :
    matchModelAt (w ++ ' ' :: ';' :: r) = none := by
  rcases matchCI_cases "model".toList w (' ' :: ';' :: r) with h | ⟨hlen, heq⟩ | ⟨hlen, heq⟩
  · simp only [matchModelAt, h]
  · have h5 : ("model".toList).length = 5 := by decide
    rw [h5] at heq
    simp only [matchModelAt, heq]
    cases hd : w.drop 5 with
    | nil =>
      simp only [List.nil_append]
      rw [List.takeWhile_cons_of_pos (p := isSpaceChar) (by decide),
        List.takeWhile_cons_of_neg (p := isSpaceChar) (by decide)]
      simp only [List.length_cons, List.length_nil, List.drop_succ_cons,
        List.drop_zero]
      rw [if_neg (by decide : ¬ ((';' : Char).toNat = 61))]
    | cons ch w2 =>
      have hch : isWordChar ch = true :=
        hw ch (List.drop_subset 5 w (hd ▸ List.mem_cons_self ch w2))
      have hns : isSpaceChar ch = false := word_not_space ch hch
      simp only [List.cons_append]
      rw [List.takeWhile_cons_of_neg (p := isSpaceChar) (by simp [hns])]
      simp only [List.length_nil, List.drop_zero]
      rw [if_neg (fun hc => (word_ne_eq_sign ch hch) ▸ hc)]
  · have hne : ("model".toList).drop w.length ≠ [] := by
      intro hnil
      have hl := congrArg List.length hnil
      simp only [List.length_drop, List.length_nil] at hl
      have h5 : ("model".toList).length = 5 := by decide
      rw [h5] at hl
      omega
    obtain ⟨l, ls', hls⟩ := List.exists_cons_of_ne_nil hne
    have hlmem : l ∈ "model".toList := by
      have hmem : l ∈ ("model".toList).drop w.length := by
        rw [hls]
        simp
      exact List.drop_subset _ _ hmem
    have hl : ¬ (l.toLower = (' ' : Char).toLower) := by
      fin_cases hlmem <;> decide
    simp only [matchModelAt, heq, hls, matchCI, if_neg hl]

theorem scanModel_skip_word (t : List Char) :
    ∀ (w : List Char) (pos : Nat), (∀ ch ∈ w, isWordChar ch = true) →
      scanModel (w ++ ' ' :: ';' :: t) pos 0
        = scanModel (' ' :: ';' :: t) (pos + w.length) 0 := by
  intro w
  induction w with
  | nil => intro pos _; simp
  | cons x w ih =>
    intro pos hw
    have hfail : matchModelAt ((x :: w) ++ ' ' :: ';' :: t) = none :=
      matchModel_none_word_sep (x :: w) t hw
    rw [List.cons_append, scanModel_cons_none _ _ _ (by simpa using hfail),
      ih (pos + 1) (fun ch hch => hw ch (by simp [hch]))]
    have harith : pos + 1 + w.length = pos + (x :: w).length := by
      simp only [List.length_cons]
      omega
    rw [harith]

/-- A successful model match: `"model = \"" ++ p ++ "\"" ++ r` captures
`p` with match length `10 + p.length`. -/
theorem matchModel_hit (p r : List Char)
    (hp5 : 5 ≤ p.length)
    (hpe : lowerStr (p.drop (p.length - 4)) = ".p3d".toList)
    (hpq : ∀ ch ∈ p, isQuoteChar ch = false) :
    matchModelAt ("model = ".toList ++ '"' :: (p ++ '"' :: r))
      = some (p, 10 + p.length) := by
  have hsplit : "model = ".toList ++ '"' :: (p ++ '"' :: r)
      = "model".toList ++ (' ' :: '=' :: ' ' :: '"' :: (p ++ '"' :: r)) := by rfl
  have hself : matchCI "model".toList
      ("model".toList ++ (' ' :: '=' :: ' ' :: '"' :: (p ++ '"' :: r)))
      = some (' ' :: '=' :: ' ' :: '"' :: (p ++ '"' :: r)) := by
    rw [show "model".toList = ['m', 'o', 'd', 'e', 'l'] from rfl]
    simp [matchCI]
  rw [matchModelAt, hsplit, hself]
  dsimp only
  rw [List.takeWhile_cons_of_pos (p := isSpaceChar) (by decide),
    List.takeWhile_cons_of_neg (p := isSpaceChar) (by decide)]
  simp only [List.length_cons, List.length_nil, List.drop_succ_cons, List.drop_zero]
  rw [if_pos (by decide : (('=' : Char).toNat = 61))]
  rw [List.takeWhile_cons_of_pos (p := isSpaceChar) (by decide),
    List.takeWhile_cons_of_neg (p := isSpaceChar) (by decide)]
  simp only [List.length_cons, List.length_nil, List.drop_succ_cons, List.drop_zero]
  rw [if_pos (by decide : isQuoteChar '"' = true)]
  have hcontent : (p ++ '"' :: r).takeWhile (fun c => !isQuoteChar c) = p :=
    takeWhile_all_stop _ p '"' r (fun ch hch => by simp [hpq ch hch]) (by decide)
  rw [hcontent, List.drop_left]
  rw [if_pos ⟨by simp, hp5, hpe⟩]
  simp only [Option.some.injEq, Prod.mk.injEq, true_and]
  omega

/-! ### Failure and hit lemmas for the class pattern -/

theorem matchCI_class_head (c : Char) (r : List Char) (h : c.toLower ≠ 'c') :
    matchCI "class".toList (c :: r) = none := by
  have hm : ('c' : Char).toLower = 'c' := by decide
  rw [show "class".toList = 'c' :: "lass".toList from rfl]
  simp only [matchCI]
  rw [if_neg (fun heq => h (by rw [← hm]; exact heq.symm))]

theorem matchClassAt_none_head (c : Char) (r : List Char) (h : c.toLower ≠ 'c') :
    matchClassAt (c :: r) = none := by
  simp only [matchClassAt, matchCI_class_head c r h]

theorem scanClassTok_skip_run (v : List Char) :
    ∀ (u : List Char), (∀ ch ∈ u, ch.toLower ≠ 'c') →
      scanClassTok (u ++ v) 0 = scanClassTok v 0 := by
  intro u
  induction u with
  | nil => intro _; simp
  | cons x u ih =>
    intro hu
    rw [List.cons_append,
      scanClassTok_cons_none _ _ (matchClassAt_none_head x _ (hu x (by simp))),
      ih (fun ch hch => hu ch (by simp [hch]))]

/-- No class match can start inside a quote-free, space-free path followed
by a closing double quote. -/
theorem matchClass_fail_in_path (x : List Char) (t : List Char)
    (hx : ∀ ch ∈ x, isSpaceChar ch = false) :
    matchClassAt (x ++ '"' :: t) = none := by
  rcases matchCI_cases "class".toList x ('"' :: t) with h | ⟨hlen, heq⟩ | ⟨hlen, heq⟩
  · simp only [matchClassAt, h]
  · have h5 : ("class".toList).length = 5 := by decide
    rw [h5] at heq
    simp only [matchClassAt, heq]
    have hws : ((x.drop 5 ++ '"' :: t).takeWhile isSpaceChar).length = 0 := by
      cases hd : x.drop 5 with
      | nil =>
        rw [List.nil_append, List.takeWhile_cons_of_neg (p := isSpaceChar) (by decide)]
        rfl
      | cons ch x2 =>
        have hns : isSpaceChar ch = false :=
          hx ch (List.drop_subset 5 x (hd ▸ List.mem_cons_self ch x2))
        rw [List.cons_append, List.takeWhile_cons_of_neg (by simp [hns])]
        rfl
    rw [if_pos hws]
  · have hne : ("class".toList).drop x.length ≠ [] := by
      intro hnil
      have hl := congrArg List.length hnil
      simp only [List.length_drop, List.length_nil] at hl
      have h5 : ("class".toList).length = 5 := by decide
      rw [h5] at hl
      omega
    obtain ⟨l, ls', hls⟩ := List.exists_cons_of_ne_nil hne
    have hlmem : l ∈ "class".toList := by
      have hmem : l ∈ ("class".toList).drop x.length := by
        rw [hls]
        simp
      exact List.drop_subset _ _ hmem
    have hl : ¬ (l.toLower = ('"' : Char).toLower) := by
      fin_cases hlmem <;> decide
    simp only [matchClassAt, heq, hls, matchCI, if_neg hl]

theorem scanClassTok_skip_path (t : List Char) :
    ∀ (x : List Char), (∀ ch ∈ x, isSpaceChar ch = false) →
      scanClassTok (x ++ '"' :: t) 0 = scanClassTok ('"' :: t) 0 := by
  intro x
  induction x with
  | nil => intro _; simp
  | cons a x ih =>
    intro hx
    have hfail : matchClassAt ((a :: x) ++ '"' :: t) = none :=
      matchClass_fail_in_path (a :: x) t hx
    rw [List.cons_append, scanClassTok_cons_none _ _ (by simpa using hfail),
      ih (fun ch hch => hx ch (by simp [hch]))]

/-- A successful class match: `"class " ++ c ++ x :: r` with `c` a
non-empty word run and `x` a non-word character captures `c` with match
length `6 + c.length`. -/
theorem matchClass_hit (c : List Char) (x : Char) (r : List Char)
    (hc : c ≠ []) (hcw : ∀ ch ∈ c, isWordChar ch = true)
    (hx : isWordChar x = false) :
    matchClassAt ("class ".toList ++ (c ++ x :: r)) = some (c, 6 + c.length) := by
  have hsplit : "class ".toList ++ (c ++ x :: r)
      = "class".toList ++ (' ' :: (c ++ x :: r)) := by rfl
  have hself : matchCI "class".toList ("class".toList ++ (' ' :: (c ++ x :: r)))
      = some (' ' :: (c ++ x :: r)) := by
    rw [show "class".toList = ['c', 'l', 'a', 's', 's'] from rfl]
    simp [matchCI]
  rw [matchClassAt, hsplit, hself]
  dsimp only
  obtain ⟨ch0, c', rfl⟩ : ∃ ch0 c', c = ch0 :: c' := by
    cases c with
    | nil => exact absurd rfl hc
    | cons ch0 c' => exact ⟨ch0, c', rfl⟩
  have hns : isSpaceChar ch0 = false := word_not_space ch0 (hcw ch0 (by simp))
  rw [List.takeWhile_cons_of_pos (p := isSpaceChar) (by decide),
    List.cons_append, List.takeWhile_cons_of_neg (p := isSpaceChar) (by simp [hns])]
  simp only [List.length_cons, List.length_nil, List.drop_succ_cons, List.drop_zero]
  rw [if_neg (by omega : ¬ (0 + 1 = 0))]
  have hword : ((ch0 :: c') ++ x :: r).takeWhile isWordChar = ch0 :: c' :=
    takeWhile_all_stop _ (ch0 :: c') x r hcw hx
  rw [show ch0 :: (c' ++ x :: r) = (ch0 :: c') ++ x :: r from rfl, hword]
  rw [if_neg (by simp : ¬ ((ch0 :: c').length = 0))]
  simp only [Option.some.injEq, Prod.mk.injEq, true_and, List.length_cons]

/-! ### The two-assignment template -/

def litClassSp : List Char := ['c', 'l', 'a', 's', 's', ' ']

def litModelEq : List Char := ['m', 'o', 'd', 'e', 'l', ' ', '=', ' ']

/-- `class <c> ; model = "<p₁>" ; model = "<p₂>" ;` -/
def cfg_template (c p₁ p₂ : List Char) : List Char :=
  litClassSp ++ (c ++ (' ' :: ';' :: ' ' :: (litModelEq ++
    ('"' :: (p₁ ++ ('"' :: ' ' :: ';' :: ' ' :: (litModelEq ++
    ('"' :: (p₂ ++ ('"' :: ' ' :: ';' :: []))))))))))

/-- A path the model pattern accepts: length at least 5, ending
case-insensitively in `.p3d`, and free of quotes and whitespace. -/
def path_ok (p : List Char) : Prop :=
  5 ≤ p.length ∧ lowerStr (p.drop (p.length - 4)) = ".p3d".toList ∧
    ∀ ch ∈ p, isQuoteChar ch = false ∧ isSpaceChar ch = false

instance : ∀ p, Decidable (path_ok p) := fun p => by
  unfold path_ok
  infer_instance

theorem stepA (t : List Char) (pos : Nat) :
    scanModel (litClassSp ++ t) pos 0 = scanModel t (pos + 6) 0 := by
  have h := scanModel_skip_run t litClassSp pos (by decide)
  simpa [litClassSp] using h

theorem stepSep (t : List Char) (pos : Nat) :
    scanModel (' ' :: ';' :: ' ' :: t) pos 0 = scanModel t (pos + 3) 0 := by
  have h := scanModel_skip_run t [' ', ';', ' '] pos (by decide)
  simpa using h

theorem stepHit (p r : List Char) (pos : Nat)
    (hp5 : 5 ≤ p.length)
    (hpe : lowerStr (p.drop (p.length - 4)) = ".p3d".toList)
    (hpq : ∀ ch ∈ p, isQuoteChar ch = false) :
    scanModel (litModelEq ++ ('"' :: (p ++ '"' :: r))) pos 0
      = (pos, p) :: scanModel r (pos + 10 + p.length) 0 := by
  have hm := matchModel_hit p r hp5 hpe hpq
  rw [show litModelEq ++ ('"' :: (p ++ '"' :: r))
      = 'm' :: (['o', 'd', 'e', 'l', ' ', '=', ' '] ++ ('"' :: (p ++ '"' :: r)))
      from rfl]
  rw [scanModel_cons_some _ _ _ _ _ (by exact hm)]
  have hu : ['o', 'd', 'e', 'l', ' ', '=', ' '] ++ ('"' :: (p ++ '"' :: r))
      = ((['o', 'd', 'e', 'l', ' ', '=', ' '] ++ ('"' :: p)) ++ ['"']) ++ r := by
    simp [List.append_assoc]
  have hlen : ((['o', 'd', 'e', 'l', ' ', '=', ' '] ++ ('"' :: p)) ++ ['"']).length
      = 9 + p.length := by
    simp [List.length_append]
    omega
  have hskip : 10 + p.length - 1
      = ((['o', 'd', 'e', 'l', ' ', '=', ' '] ++ ('"' :: p)) ++ ['"']).length := by
    rw [hlen]
    omega
  rw [hu, hskip, scanModel_skip, hlen]
  have harith : pos + 1 + (9 + p.length) = pos + 10 + p.length := by omega
  rw [harith]

theorem scanModel_end (pos : Nat) : scanModel [' ', ';'] pos 0 = [] := by
  have h := scanModel_skip_run [] [' ', ';'] pos (by decide)
  simpa using h

theorem scanModel_template (c p₁ p₂ : List Char)
    (hcw : ∀ ch ∈ c, isWordChar ch = true)
    (h1 : path_ok p₁) (h2 : path_ok p₂) :
    scanModel (cfg_template c p₁ p₂) 0 0
      = [(9 + c.length, p₁), (22 + c.length + p₁.length, p₂)] := by
  obtain ⟨hp15, hp1e, hp1c⟩ := h1
  obtain ⟨hp25, hp2e, hp2c⟩ := h2
  rw [cfg_template, stepA, scanModel_skip_word _ c _ hcw, stepSep,
    stepHit p₁ _ _ hp15 hp1e (fun ch hch => (hp1c ch hch).1), stepSep,
    stepHit p₂ _ _ hp25 hp2e (fun ch hch => (hp2c ch hch).1), scanModel_end]
  simp only [List.cons.injEq, Prod.mk.injEq, and_true, true_and, and_self]
  omega

theorem stepClassHit (c : List Char) (x : Char) (t : List Char)
    (hc : c ≠ []) (hcw : ∀ ch ∈ c, isWordChar ch = true)
    (hx : isWordChar x = false) :
    scanClassTok (litClassSp ++ (c ++ x :: t)) 0 = c :: scanClassTok (x :: t) 0 := by
  have hm := matchClass_hit c x t hc hcw hx
  rw [show litClassSp ++ (c ++ x :: t)
      = 'c' :: (['l', 'a', 's', 's', ' '] ++ (c ++ x :: t)) from rfl]
  rw [scanClassTok_cons_some _ _ _ _ (by exact hm)]
  have hu : ['l', 'a', 's', 's', ' '] ++ (c ++ x :: t)
      = (['l', 'a', 's', 's', ' '] ++ c) ++ (x :: t) := by
    simp [List.append_assoc]
  have hlen : (['l', 'a', 's', 's', ' '] ++ c).length = 5 + c.length := by
    simp [List.length_append]
    omega
  have hskip : 6 + c.length - 1 = (['l', 'a', 's', 's', ' '] ++ c).length := by
    rw [hlen]
    omega
  rw [hu, hskip, scanClassTok_skip]

theorem stepClassSep (t : List Char) :
    scanClassTok (' ' :: ';' :: ' ' :: t) 0 = scanClassTok t 0 := by
  have h := scanClassTok_skip_run t [' ', ';', ' '] (by decide)
  simpa using h

theorem stepClassModelEq (t : List Char) :
    scanClassTok (litModelEq ++ t) 0 = scanClassTok t 0 := by
  have h := scanClassTok_skip_run t litModelEq (by decide)
  simpa [litModelEq] using h

theorem stepClassQuote (p t : List Char)
    (hp : ∀ ch ∈ p, isSpaceChar ch = false) :
    scanClassTok ('"' :: (p ++ '"' :: t)) 0 = scanClassTok ('"' :: t) 0 := by
  rw [scanClassTok_cons_none _ _ (matchClassAt_none_head '"' _ (by decide)),
    scanClassTok_skip_path t p hp]

theorem scanClass_win1 (c : List Char) (hc : c ≠ [])
    (hcw : ∀ ch ∈ c, isWordChar ch = true) :
    scanClassTok (litClassSp ++ (c ++ [' ', ';', ' '])) 0 = [c] := by
  rw [show (([' ', ';', ' '] : List Char)) = ' ' :: [';', ' '] from rfl,
    stepClassHit c ' ' [';', ' '] hc hcw (by decide)]
  rw [show scanClassTok (' ' :: [';', ' ']) 0 = [] from by decide]

theorem scanClass_win2 (c p₁ : List Char) (hc : c ≠ [])
    (hcw : ∀ ch ∈ c, isWordChar ch = true)
    (hp : ∀ ch ∈ p₁, isSpaceChar ch = false) :
    scanClassTok (litClassSp ++ (c ++ (' ' :: ';' :: ' ' :: (litModelEq ++
      ('"' :: (p₁ ++ ('"' :: [' ', ';', ' ']))))))) 0 = [c] := by
  rw [stepClassHit c ' ' _ hc hcw (by decide), stepClassSep, stepClassModelEq,
    stepClassQuote p₁ _ hp]
  rw [show scanClassTok ('"' :: [' ', ';', ' ']) 0 = [] from by decide]

theorem take_win1 (c p₁ p₂ : List Char) :
    (cfg_template c p₁ p₂).take (9 + c.length)
      = litClassSp ++ (c ++ [' ', ';', ' ']) := by
  rw [cfg_template,
    show 9 + c.length = litClassSp.length + (c.length + 3) from by
      simp [litClassSp]
      omega,
    List.take_append, List.take_append]
  rfl

theorem take_win2 (c p₁ p₂ : List Char) :
    (cfg_template c p₁ p₂).take (22 + c.length + p₁.length)
      = litClassSp ++ (c ++ (' ' :: ';' :: ' ' :: (litModelEq ++
          ('"' :: (p₁ ++ ('"' :: [' ', ';', ' '])))))) := by
  rw [cfg_template,
    show 22 + c.length + p₁.length
        = litClassSp.length + (c.length + (3 + (litModelEq.length
            + (1 + (p₁.length + 4))))) from by
      simp [litClassSp, litModelEq]
      omega,
    List.take_append, List.take_append,
    show (3 + (litModelEq.length + (1 + (p₁.length + 4))))
        = ((litModelEq.length + (1 + (p₁.length + 4))) + 2) + 1 from by omega,
    List.take_succ_cons,
    show (litModelEq.length + (1 + (p₁.length + 4))) + 2
        = ((litModelEq.length + (1 + (p₁.length + 4))) + 1) + 1 from by omega,
    List.take_succ_cons, List.take_succ_cons,
    List.take_append,
    show 1 + (p₁.length + 4) = (p₁.length + 4) + 1 from by omega,
    List.take_succ_cons, List.take_append]
  rfl

theorem getLast?_singleton_str (x : List Char) :
    ([x] : List (List Char)).getLast? = some x := rfl

/-- **C8 (amended).** The configuration-text scan binds each
model-assignment match ending in `.p3d` to the nearest preceding
`class <Identifier>` token found by scanning backward from the match
position *within a window of at most 1000 characters* (a match whose
nearest preceding class token lies further back yields no binding);
backslashes in the bound path are normalized to forward slashes, and when
several matches bind to the same class name the later-scanned binding
overwrites the earlier one.  This is exhibited on the universal template
`class <c> ; model = "<p₁>" ; model = "<p₂>" ;` — both assignments bind
to `<c>` and the later one wins — and on the claim's concrete example
`class Foo { model = "x\y.p3d"; }`, which yields `Foo -> x/y.p3d`. -/
theorem C8_config_scan :
    (∀ (c p₁ p₂ : List Char),
      c ≠ [] → (∀ ch ∈ c, isWordChar ch = true) →
      path_ok p₁ → path_ok p₂ →
      22 + c.length + p₁.length ≤ 1000 →
      parse_config_bin (cfg_template c p₁ p₂) = [(c, normSlash p₂)]) ∧
    parse_config_bin ("class Foo \x7b model = \"x\\y.p3d\"; \x7d".toList)
      = [("Foo".toList, "x/y.p3d".toList)] := by
  constructor
  · intro c p₁ p₂ hc hcw h1 h2 hwin
    have hp1sp : ∀ ch ∈ p₁, isSpaceChar ch = false :=
      fun ch hch => (h1.2.2 ch hch).2
    rw [parse_config_bin, scanModel_template c p₁ p₂ hcw h1 h2]
    simp only [List.foldl_cons, List.foldl_nil]
    have hz1 : 9 + c.length - 1000 = 0 := by omega
    have hz2 : 22 + c.length + p₁.length - 1000 = 0 := by omega
    rw [hz1, hz2]
    simp only [List.drop_zero]
    rw [take_win1, take_win2, scanClass_win1 c hc hcw,
      scanClass_win2 c p₁ hc hcw hp1sp, getLast?_singleton_str]
    simp [dictInsert]
  · decide

/-- Witness for C8 at `class Foo ; model = "a.p3d" ; model = "x\y.p3d" ;`:
both matches bind to `Foo` and the later one wins, normalized. -/
theorem C8_config_scan_witness :
    parse_config_bin (cfg_template "Foo".toList "a.p3d".toList "x\\y.p3d".toList)
      = [("Foo".toList, normSlash "x\\y.p3d".toList)] :=
  C8_config_scan.1 "Foo".toList "a.p3d".toList "x\\y.p3d".toList
    (by decide) (by decide) (by decide) (by decide) (by decide)

end DayZMT
